import Mathlib

/-!
# Doubly linked list of `dataStruct/linkList.go`

A shallow embedding of the generic doubly linked list.  Go pointers to nodes are
modelled as optional addresses into an explicit heap (a list of node cells, the
address being the index), `nil` being `none`.  Every method becomes a function
on the heap and the list header; it returns `none` when the Go code would
dereference `nil`, when an address is not an allocated cell, or when a loop
runs out of the fuel it was given.

The `len` field is a Go `int`.  It is modelled as an unbounded `Int`: the
counter only ever moves by one per linked node (or by another list's counter),
and the number of live nodes is far below the range of a machine `int`.
-/

namespace dataStruct

/-- The struct `listNode[T]`: previous node, next node, value. The address of a node
cell is a natural number, so a Go `*listNode[T]` is an `Option Nat`. -/
structure listNode (T : Type) where
  prev : Option Nat
  next : Option Nat
  value : T
deriving DecidableEq, Repr

/-- The heap of node cells; cell `a` is the node at address `a`. -/
abbrev Heap (T : Type) := List (listNode T)

/-- The struct `List[T]` (named after the file, since `List` is Lean's own list type):
head, tail, length, value copy function, value comparison function. -/
structure LinkList (T : Type) where
  head : Option Nat
  tail : Option Nat
  len : Int
  copy : Option (T → T)
  equal : Option (T → T → Bool)

variable {T : Type}

/-! ## Heap primitives -/

/-- Overwrite cell `a` with `g` applied to its content (the heap is returned as is when
`a` is not allocated). -/
def Heap.put (h : Heap T) (a : Nat) (g : listNode T → listNode T) : Heap T :=
  match h[a]? with
  | some n => h.set a (g n)
  | none => h

/-- Cell `a` with its `prev` field set to `v`. -/
def putPrev (h : Heap T) (a : Nat) (v : Option Nat) : Heap T :=
  h.put a (fun n => { n with prev := v })

/-- Cell `a` with its `next` field set to `v`. -/
def putNext (h : Heap T) (a : Nat) (v : Option Nat) : Heap T :=
  h.put a (fun n => { n with next := v })

/-- Cell `a` with its `value` field set to `v`. -/
def putValue (h : Heap T) (a : Nat) (v : T) : Heap T :=
  h.put a (fun n => { n with value := v })

/-- The statement `a.prev = v`; it fails when `a` is not an allocated cell. -/
def setPrev (h : Heap T) (a : Nat) (v : Option Nat) : Option (Heap T) :=
  if a < h.length then some (putPrev h a v) else none

/-- The statement `a.next = v`; it fails when `a` is not an allocated cell. -/
def setNext (h : Heap T) (a : Nat) (v : Option Nat) : Option (Heap T) :=
  if a < h.length then some (putNext h a v) else none

/-- The statement `a.value = v`; it fails when `a` is not an allocated cell. -/
def setValue (h : Heap T) (a : Nat) (v : T) : Option (Heap T) :=
  if a < h.length then some (putValue h a v) else none

/-- The expression `a.prev`; it fails when `a` is not an allocated cell. -/
def getPrev (h : Heap T) (a : Nat) : Option (Option Nat) :=
  (h[a]?).map (fun n => n.prev)

/-- The expression `a.next`; it fails when `a` is not an allocated cell. -/
def getNext (h : Heap T) (a : Nat) : Option (Option Nat) :=
  (h[a]?).map (fun n => n.next)

/-- The expression `a.value`; it fails when `a` is not an allocated cell. -/
def getValue (h : Heap T) (a : Nat) : Option T :=
  (h[a]?).map (fun n => n.value)

/-- Dereferencing a pointer: `nil` fails. -/
def deref (p : Option Nat) : Option Nat := p

/-! ## Constructors -/

/-- The function `newList`: the zero-valued header. -/
def newList : LinkList T :=
  { head := none, tail := none, len := 0, copy := none, equal := none }

/-- The function `newListNode`: allocates a fresh cell holding `value`. -/
def newListNode (h : Heap T) (value : T) : Heap T × Nat :=
  (h ++ [{ prev := none, next := none, value := value }], h.length)

/-- The function `newListEmptyNode`: allocates a fresh zero-valued cell; `default`
stands for Go's zero value of `T`. -/
def newListEmptyNode [Inhabited T] (h : Heap T) : Heap T × Nat :=
  (h ++ [{ prev := none, next := none, value := default }], h.length)

/-! ## Methods -/

/-- The method `PushFront`. -/
def PushFront [Inhabited T] (h : Heap T) (l : LinkList T) (value : T) :
    Option (Heap T × LinkList T) := do
  let (h, node) := newListEmptyNode h
  let h ← setValue h node value
  match l.head with
  | none =>
    let l := { l with head := some node }
    let l := { l with tail := some node }
    pure (h, { l with len := l.len + 1 })
  | some hd =>
    let h ← setNext h node l.head
    let h ← setPrev h hd (some node)
    let l := { l with head := some node }
    pure (h, { l with len := l.len + 1 })

/-- The method `PushBack`. The source never stores `value` into the new node. -/
def PushBack [Inhabited T] (h : Heap T) (l : LinkList T) (_value : T) :
    Option (Heap T × LinkList T) := do
  let (h, node) := newListEmptyNode h
  match l.tail with
  | none =>
    let l := { l with head := some node }
    let l := { l with tail := some node }
    pure (h, { l with len := l.len + 1 })
  | some tl =>
    let h ← setPrev h node l.tail
    let h ← setNext h tl (some node)
    let l := { l with tail := some node }
    pure (h, { l with len := l.len + 1 })

/-- The method `InsertBefore`. -/
def InsertBefore (h : Heap T) (l : LinkList T) (node newNode : Nat) :
    Option (Heap T × LinkList T) := do
  let p ← getPrev h node
  let h ← setPrev h newNode p
  let h ← setNext h newNode (some node)
  let p ← getPrev h node
  let (h, l) ← (match p with
    | none => pure (h, { l with head := some newNode })
    | some pa => do
      let h ← setNext h pa (some newNode)
      pure (h, l))
  let h ← setPrev h node (some newNode)
  pure (h, { l with len := l.len + 1 })

/-- The common body of `Remove` and `Detach` is written out twice in the source;
this is the method `Remove`. -/
def Remove (h : Heap T) (l : LinkList T) (node : Nat) :
    Option (Heap T × LinkList T) := do
  let p ← getPrev h node
  let (h, l) ← (match p with
    | none => do
      let nx ← getNext h node
      pure (h, { l with head := nx })
    | some pa => do
      let nx ← getNext h node
      let h ← setNext h pa nx
      pure (h, l))
  let nx ← getNext h node
  let (h, l) ← (match nx with
    | none => do
      let p ← getPrev h node
      pure (h, { l with tail := p })
    | some na => do
      let p ← getPrev h node
      let h ← setPrev h na p
      pure (h, l))
  pure (h, { l with len := l.len - 1 })

/-- The method `Detach`. -/
def Detach (h : Heap T) (l : LinkList T) (node : Nat) :
    Option (Heap T × LinkList T) := do
  let p ← getPrev h node
  let (h, l) ← (match p with
    | none => do
      let nx ← getNext h node
      pure (h, { l with head := nx })
    | some pa => do
      let nx ← getNext h node
      let h ← setNext h pa nx
      pure (h, l))
  let nx ← getNext h node
  let (h, l) ← (match nx with
    | none => do
      let p ← getPrev h node
      pure (h, { l with tail := p })
    | some na => do
      let p ← getPrev h node
      let h ← setPrev h na p
      pure (h, l))
  pure (h, { l with len := l.len - 1 })

/-- The loop of `Copy`: `for i := l.head; i != nil; i = i.next`, pushing
`l.copy(i.value)` at the back of the new list. One unit of fuel per iteration test. -/
def copyLoop [Inhabited T] (f : T → T) :
    Nat → Heap T → Option Nat → LinkList T → Option (Heap T × LinkList T)
  | 0, _, _, _ => none
  | _ + 1, h, none, nl => some (h, nl)
  | fuel + 1, h, some i, nl => do
    let v ← getValue h i
    let (h, nl) ← PushBack h nl (f v)
    let nx ← getNext h i
    copyLoop f fuel h nx nl

/-- The method `Copy`: the new heap, the returned list pointer and the returned error.
The outer `none` means the loop did not finish within `fuel` iterations. -/
def Copy [Inhabited T] (fuel : Nat) (h : Heap T) (l : LinkList T) :
    Option (Heap T × Option (LinkList T) × Option String) :=
  match l.copy with
  | none => some (h, none, some "copy function is nil")
  | some f =>
    let nl : LinkList T := newList
    let nl := { nl with copy := l.copy }
    let nl := { nl with equal := l.equal }
    (copyLoop f fuel h l.head nl).map (fun r => (r.1, some r.2, none))

/-- The loop of `Search`: `for i := l.head; i != nil; i = i.next`. -/
def searchLoop (eq : T → T → Bool) (key : T) :
    Nat → Heap T → Option Nat → Option (Option Nat × Option String)
  | 0, _, _ => none
  | _ + 1, _, none => some (none, none)
  | fuel + 1, h, some i => do
    let v ← getValue h i
    if eq v key then
      pure (some i, none)
    else
      let nx ← getNext h i
      searchLoop eq key fuel h nx

/-- The method `Search`: the returned node pointer and the returned error. It has no
assignment to the heap or to the header, so it is a function of them. -/
def Search (fuel : Nat) (h : Heap T) (l : LinkList T) (key : T) :
    Option (Option Nat × Option String) :=
  match l.equal with
  | none => some (none, some "equal function is nil")
  | some eq => searchLoop eq key fuel h l.head

/-- The loop of `Index`: `node = node.next`, as many times as there are iterations left. -/
def indexLoop (h : Heap T) : Nat → Option Nat → Option (Option Nat)
  | 0, node => some node
  | k + 1, node => do
    let a ← deref node
    let nx ← getNext h a
    indexLoop h k nx

/-- The method `Index`; `none` is a `nil` dereference, `some none` the result `nil`. -/
def Index (h : Heap T) (l : LinkList T) (index : Int) : Option (Option Nat) :=
  if index < 0 ∨ index ≥ l.len then some none
  else indexLoop h index.toNat l.head

/-- The method `Rotate`. -/
def Rotate (h : Heap T) (l : LinkList T) : Option (Heap T × LinkList T) :=
  match l.tail with
  | none => some (h, l)
  | some _ => do
    let t ← deref l.tail
    let h ← setNext h t l.head
    let hd ← deref l.head
    let h ← setPrev h hd l.tail
    let l := { l with head := l.tail }
    let t ← deref l.tail
    let p ← getPrev h t
    let l := { l with tail := p }
    let hd ← deref l.head
    let h ← setPrev h hd none
    let t ← deref l.tail
    let h ← setNext h t none
    pure (h, l)

/-- The method `RotateBack`. -/
def RotateBack (h : Heap T) (l : LinkList T) : Option (Heap T × LinkList T) :=
  match l.head with
  | none => some (h, l)
  | some _ => do
    let hd ← deref l.head
    let h ← setPrev h hd l.tail
    let t ← deref l.tail
    let h ← setNext h t l.head
    let l := { l with tail := l.head }
    let hd ← deref l.head
    let nx ← getNext h hd
    let l := { l with head := nx }
    let hd ← deref l.head
    let h ← setPrev h hd none
    let t ← deref l.tail
    let h ← setNext h t none
    pure (h, l)

/-- The method `Concat`. The argument is a pointer to a header (`none` is `nil`); its
fields are only read, each before the receiver's field of the same name is written. -/
def Concat (h : Heap T) (l : LinkList T) (list : Option (LinkList T)) :
    Option (Heap T × LinkList T) :=
  match list with
  | none => some (h, l)
  | some list =>
    match list.head with
    | none => some (h, l)
    | some lh =>
      match l.tail with
      | none =>
        let l := { l with head := list.head }
        let l := { l with tail := list.tail }
        some (h, { l with len := l.len + list.len })
      | some tl => do
        let h ← setNext h tl list.head
        let h ← setPrev h lh l.tail
        let l := { l with tail := list.tail }
        pure (h, { l with len := l.len + list.len })

/-- The method `Append`. -/
def Append (h : Heap T) (l : LinkList T) (node : Nat) : Option (Heap T × LinkList T) :=
  match l.head with
  | none =>
    let l := { l with head := some node }
    let l := { l with tail := some node }
    some (h, { l with len := l.len + 1 })
  | some hd => do
    let h ← setNext h node l.head
    let h ← setPrev h hd (some node)
    let l := { l with head := some node }
    pure (h, { l with len := l.len + 1 })

/-- The method `AppendBack`. -/
def AppendBack (h : Heap T) (l : LinkList T) (node : Nat) : Option (Heap T × LinkList T) :=
  match l.tail with
  | none =>
    let l := { l with head := some node }
    let l := { l with tail := some node }
    some (h, { l with len := l.len + 1 })
  | some tl => do
    let h ← setPrev h node l.tail
    let h ← setNext h tl (some node)
    let l := { l with tail := some node }
    pure (h, { l with len := l.len + 1 })

/-! ## Well-formedness -/

/-- The `next` reference of the node at `a` (`none` also when `a` is not allocated). -/
def nextOf (h : Heap T) (a : Nat) : Option Nat := (h[a]?).bind (fun n => n.next)

/-- The `prev` reference of the node at `a` (`none` also when `a` is not allocated). -/
def prevOf (h : Heap T) (a : Nat) : Option Nat := (h[a]?).bind (fun n => n.prev)

/-- Walking from the reference `s` along `g` visits exactly the nodes `ns`, in this order,
and then arrives at the reference `e`. -/
def chain (g : Nat → Option Nat) : Option Nat → List Nat → Option Nat → Prop
  | s, [], e => s = e
  | s, a :: rest, e => s = some a ∧ chain g (g a) rest e

instance chainDecidable (g : Nat → Option Nat) :
    ∀ (s : Option Nat) (ns : List Nat) (e : Option Nat), Decidable (chain g s ns e)
  | s, [], e => inferInstanceAs (Decidable (s = e))
  | _, a :: rest, e =>
    @instDecidableAnd _ _ _ (chainDecidable g (g a) rest e)

/-- The list `l` is well formed in the heap `h` with head-to-tail node sequence `ns`:
the nodes are distinct allocated cells, walking `next` from `head` visits `ns` and
ends at `nil`, walking `prev` from `tail` visits `ns` backwards and ends at `nil`,
and `len` is the number of nodes. The sequence `ns` is determined by the heap and the
header: it is what the executable `walk` from `head` returns (`WF.walk_eq`). -/
def WF (h : Heap T) (l : LinkList T) (ns : List Nat) : Prop :=
  ns.Nodup ∧ (∀ a ∈ ns, a < h.length) ∧
    chain (nextOf h) l.head ns none ∧ chain (prevOf h) l.tail ns.reverse none ∧
    l.len = ns.length

instance WFDecidable (h : Heap T) (l : LinkList T) (ns : List Nat) : Decidable (WF h l ns) := by
  unfold WF; infer_instance

/-- The values held by the nodes `ns`, in order. -/
def values (h : Heap T) (ns : List Nat) : List (Option T) := ns.map (getValue h)

/-- Walking `next` from the reference `s`: the nodes visited until `nil`, in order. The
result is `none` when a cell is not allocated or the walk does not end within `fuel` steps. -/
def walk (h : Heap T) : Nat → Option Nat → Option (List Nat)
  | 0, _ => none
  | _ + 1, none => some []
  | fuel + 1, some a => do
    let nx ← getNext h a
    let rest ← walk h fuel nx
    pure (a :: rest)

/-- Calling `Rotate()` `k` times in a row. -/
def RotateN : Nat → Heap T → LinkList T → Option (Heap T × LinkList T)
  | 0, h, l => some (h, l)
  | k + 1, h, l => do
    let (h, l) ← Rotate h l
    RotateN k h l

/-- Calling `RotateBack()` `k` times in a row. -/
def RotateBackN : Nat → Heap T → LinkList T → Option (Heap T × LinkList T)
  | 0, h, l => some (h, l)
  | k + 1, h, l => do
    let (h, l) ← RotateBack h l
    RotateBackN k h l

/-- A mutating call on a list: the method and its arguments. -/
inductive Mutation (T : Type) where
  | pushFront (value : T)
  | pushBack (value : T)
  | insertBefore (node newNode : Nat)
  | remove (node : Nat)
  | detach (node : Nat)
  | rotate
  | rotateBack
  | concat (list : Option (LinkList T))
  | append (node : Nat)
  | appendBack (node : Nat)

/-- Running a mutating call on the receiver `l` in the heap `h`. -/
def Mutation.apply [Inhabited T] :
    Mutation T → Heap T → LinkList T → Option (Heap T × LinkList T)
  | .pushFront v, h, l => PushFront h l v
  | .pushBack v, h, l => PushBack h l v
  | .insertBefore node newNode, h, l => InsertBefore h l node newNode
  | .remove node, h, l => Remove h l node
  | .detach node, h, l => Detach h l node
  | .rotate, h, l => Rotate h l
  | .rotateBack, h, l => RotateBack h l
  | .concat list, h, l => Concat h l list
  | .append node, h, l => Append h l node
  | .appendBack node, h, l => AppendBack h l node

/-- The documented precondition of a mutating call on a receiver whose node sequence is
`ns`: an anchor or removed node belongs to the list; an inserted node is an allocated node
not in the list; an appended node is moreover detached; a concatenated list is well formed
and shares no node with the receiver. -/
def Mutation.pre (h : Heap T) (ns : List Nat) : Mutation T → Prop
  | .pushFront _ => True
  | .pushBack _ => True
  | .insertBefore node newNode => node ∈ ns ∧ newNode < h.length ∧ newNode ∉ ns
  | .remove node => node ∈ ns
  | .detach node => node ∈ ns
  | .rotate => True
  | .rotateBack => True
  | .concat none => True
  | .concat (some other) => ∃ ms, WF h other ms ∧ ∀ a ∈ ns, a ∉ ms
  | .append node => node < h.length ∧ node ∉ ns ∧ prevOf h node = none ∧ nextOf h node = none
  | .appendBack node =>
    node < h.length ∧ node ∉ ns ∧ prevOf h node = none ∧ nextOf h node = none

/-- The arguments of a mutating call involve no node of `S`. -/
def Mutation.avoids (h : Heap T) (S : List Nat) : Mutation T → Prop
  | .insertBefore _ newNode => newNode ∉ S
  | .concat (some other) => ∀ ms, WF h other ms → ∀ a ∈ ms, a ∉ S
  | .append node => node ∉ S
  | .appendBack node => node ∉ S
  | _ => True

/-- Well-formedness in the words of the specification: walking `next` from `head` visits
exactly `len` distinct nodes and ends at `tail`; every `n.next = m` has `m.prev = n` and
vice versa; `head.prev` and `tail.next` are absent; and `len = 0` exactly when `head` and
`tail` are both absent. -/
def WellFormed (h : Heap T) (l : LinkList T) : Prop :=
  ∃ (fuel : Nat) (ns : List Nat),
    walk h fuel l.head = some ns ∧ ns.Nodup ∧ (ns.length : Int) = l.len ∧
      l.tail = ns.getLast? ∧
      (∀ n ∈ ns, ∀ m, nextOf h n = some m → prevOf h m = some n) ∧
      (∀ m ∈ ns, ∀ n, prevOf h m = some n → nextOf h n = some m) ∧
      (∀ a, l.head = some a → prevOf h a = none) ∧
      (∀ a, l.tail = some a → nextOf h a = none) ∧
      (l.len = 0 ↔ l.head = none ∧ l.tail = none)

/-- A step of a push and remove session: `PushFront(v)`, `PushBack(v)`, or `Remove` of the
node that `Index(k)` returns. -/
inductive Step (T : Type) where
  | pushFront (value : T)
  | pushBack (value : T)
  | removeAt (k : Nat)

/-- Running a session of pushes and removes, in order. -/
def runSteps [Inhabited T] :
    List (Step T) → Heap T → LinkList T → Option (Heap T × LinkList T)
  | [], h, l => some (h, l)
  | .pushFront v :: rest, h, l => do
    let (h, l) ← PushFront h l v
    runSteps rest h l
  | .pushBack v :: rest, h, l => do
    let (h, l) ← PushBack h l v
    runSteps rest h l
  | .removeAt k :: rest, h, l => do
    let p ← Index h l (k : Int)
    let node ← deref p
    let (h, l) ← Remove h l node
    runSteps rest h l

/-- Every `removeAt k` of the session addresses a position of the list as it then is,
`n` being the number of nodes at the start. -/
def stepsOk : List (Step T) → Nat → Prop
  | [], _ => True
  | .pushFront _ :: rest, n => stepsOk rest (n + 1)
  | .pushBack _ :: rest, n => stepsOk rest (n + 1)
  | .removeAt k :: rest, n => k < n ∧ stepsOk rest (n - 1)

/-- The number of pushes of a session. -/
def pushes : List (Step T) → Nat
  | [] => 0
  | .pushFront _ :: rest => pushes rest + 1
  | .pushBack _ :: rest => pushes rest + 1
  | .removeAt _ :: rest => pushes rest

/-- The number of removes of a session. -/
def removes : List (Step T) → Nat
  | [] => 0
  | .pushFront _ :: rest => removes rest
  | .pushBack _ :: rest => removes rest
  | .removeAt _ :: rest => removes rest + 1

/-! ## Example states -/

/-- A heap holding the list `[10, 20, 30]` in cells `0, 1, 2`. -/
def exHeap3 : Heap Int :=
  [⟨none, some 1, 10⟩, ⟨some 0, some 2, 20⟩, ⟨some 1, none, 30⟩]

/-- The header of the list `[10, 20, 30]`, with the identity as copy function and
integer equality as comparison function. -/
def exList3 : LinkList Int :=
  { head := some 0, tail := some 2, len := 3, copy := some (fun x => x),
    equal := some (fun a b => decide (a = b)) }

/-- The heap `exHeap3` with one more, detached, cell `3` holding `40`. -/
def exHeap4 : Heap Int :=
  [⟨none, some 1, 10⟩, ⟨some 0, some 2, 20⟩, ⟨some 1, none, 30⟩, ⟨none, none, 40⟩]

/-- A heap holding the list `[1, 2]` in cells `0, 1` and the list `[3, 4]` in cells `2, 3`. -/
def exHeapTwo : Heap Int :=
  [⟨none, some 1, 1⟩, ⟨some 0, none, 2⟩, ⟨none, some 3, 3⟩, ⟨some 2, none, 4⟩]

/-- The header of the list `[1, 2]` of `exHeapTwo`. -/
def exListA : LinkList Int :=
  { head := some 0, tail := some 1, len := 2, copy := none, equal := none }

/-- The header of the list `[3, 4]` of `exHeapTwo`. -/
def exListB : LinkList Int :=
  { head := some 2, tail := some 3, len := 2, copy := none, equal := none }

/-- A heap holding the one-node list `[7]`. -/
def exHeap1 : Heap Int := [⟨none, none, 7⟩]

/-- The header of the one-node list `[7]`. -/
def exList1 : LinkList Int :=
  { head := some 0, tail := some 0, len := 1, copy := none, equal := none }

/-! ## Heap lemmas -/

@[simp] theorem Heap.length_put (h : Heap T) (a : Nat) (g : listNode T → listNode T) :
    (h.put a g).length = h.length := by
  unfold Heap.put; split <;> simp

theorem Heap.getElem?_put (h : Heap T) (a b : Nat) (g : listNode T → listNode T) :
    (h.put a g)[b]? = if b = a then (h[b]?).map g else h[b]? := by
  unfold Heap.put
  split
  · rename_i n hn
    rw [List.getElem?_set]
    by_cases hba : b = a
    · subst hba
      have hlt : b < h.length := by
        rcases List.getElem?_eq_some_iff.1 hn with ⟨hlt, _⟩; exact hlt
      simp [hn, hlt]
    · have hab : ¬ a = b := fun e => hba e.symm
      simp [hba, hab]
  · rename_i hn
    by_cases hba : b = a
    · subst hba; simp [hn]
    · simp [hba]

@[simp] theorem length_putPrev (h : Heap T) (a : Nat) (v : Option Nat) :
    (putPrev h a v).length = h.length := by simp [putPrev]

@[simp] theorem length_putNext (h : Heap T) (a : Nat) (v : Option Nat) :
    (putNext h a v).length = h.length := by simp [putNext]

@[simp] theorem length_putValue (h : Heap T) (a : Nat) (v : T) :
    (putValue h a v).length = h.length := by simp [putValue]

theorem nextOf_putNext (h : Heap T) (a b : Nat) (v : Option Nat) (ha : a < h.length) :
    nextOf (putNext h a v) b = if b = a then v else nextOf h b := by
  unfold nextOf putNext
  rw [Heap.getElem?_put]
  by_cases hba : b = a
  · subst hba; simp [List.getElem?_eq_getElem ha]
  · simp [hba]

@[simp] theorem nextOf_putPrev (h : Heap T) (a b : Nat) (v : Option Nat) :
    nextOf (putPrev h a v) b = nextOf h b := by
  unfold nextOf putPrev
  rw [Heap.getElem?_put]
  by_cases hba : b = a
  · subst hba; cases h[b]? <;> simp
  · simp [hba]

@[simp] theorem nextOf_putValue (h : Heap T) (a b : Nat) (v : T) :
    nextOf (putValue h a v) b = nextOf h b := by
  unfold nextOf putValue
  rw [Heap.getElem?_put]
  by_cases hba : b = a
  · subst hba; cases h[b]? <;> simp
  · simp [hba]

theorem prevOf_putPrev (h : Heap T) (a b : Nat) (v : Option Nat) (ha : a < h.length) :
    prevOf (putPrev h a v) b = if b = a then v else prevOf h b := by
  unfold prevOf putPrev
  rw [Heap.getElem?_put]
  by_cases hba : b = a
  · subst hba; simp [List.getElem?_eq_getElem ha]
  · simp [hba]

@[simp] theorem prevOf_putNext (h : Heap T) (a b : Nat) (v : Option Nat) :
    prevOf (putNext h a v) b = prevOf h b := by
  unfold prevOf putNext
  rw [Heap.getElem?_put]
  by_cases hba : b = a
  · subst hba; cases h[b]? <;> simp
  · simp [hba]

@[simp] theorem prevOf_putValue (h : Heap T) (a b : Nat) (v : T) :
    prevOf (putValue h a v) b = prevOf h b := by
  unfold prevOf putValue
  rw [Heap.getElem?_put]
  by_cases hba : b = a
  · subst hba; cases h[b]? <;> simp
  · simp [hba]

theorem getValue_putValue (h : Heap T) (a b : Nat) (v : T) (ha : a < h.length) :
    getValue (putValue h a v) b = if b = a then some v else getValue h b := by
  unfold getValue putValue
  rw [Heap.getElem?_put]
  by_cases hba : b = a
  · subst hba; simp [List.getElem?_eq_getElem ha]
  · simp [hba]

@[simp] theorem getValue_putNext (h : Heap T) (a b : Nat) (v : Option Nat) :
    getValue (putNext h a v) b = getValue h b := by
  unfold getValue putNext
  rw [Heap.getElem?_put]
  by_cases hba : b = a
  · subst hba; cases h[b]? <;> simp
  · simp [hba]

@[simp] theorem getValue_putPrev (h : Heap T) (a b : Nat) (v : Option Nat) :
    getValue (putPrev h a v) b = getValue h b := by
  unfold getValue putPrev
  rw [Heap.getElem?_put]
  by_cases hba : b = a
  · subst hba; cases h[b]? <;> simp
  · simp [hba]

theorem getElem?_alloc (h : Heap T) (n : listNode T) (b : Nat) :
    (h ++ [n])[b]? = if b = h.length then some n else h[b]? := by
  by_cases hb : b < h.length
  · have hne : b ≠ h.length := Nat.ne_of_lt hb
    simp [List.getElem?_append_left hb, hne]
  · by_cases hbe : b = h.length
    · subst hbe; simp
    · have hlt : h.length < b := by omega
      have h1 : (h ++ [n])[b]? = none := by
        apply List.getElem?_eq_none
        rw [List.length_append, List.length_singleton]; omega
      have h2 : h[b]? = none := by
        apply List.getElem?_eq_none; omega
      simp [h1, h2, hbe]

theorem nextOf_alloc (h : Heap T) (n : listNode T) (b : Nat) :
    nextOf (h ++ [n]) b = if b = h.length then n.next else nextOf h b := by
  unfold nextOf; rw [getElem?_alloc]; split <;> simp

theorem prevOf_alloc (h : Heap T) (n : listNode T) (b : Nat) :
    prevOf (h ++ [n]) b = if b = h.length then n.prev else prevOf h b := by
  unfold prevOf; rw [getElem?_alloc]; split <;> simp

theorem getValue_alloc (h : Heap T) (n : listNode T) (b : Nat) :
    getValue (h ++ [n]) b = if b = h.length then some n.value else getValue h b := by
  unfold getValue; rw [getElem?_alloc]; split <;> simp

theorem getNext_eq (h : Heap T) (a : Nat) (ha : a < h.length) :
    getNext h a = some (nextOf h a) := by
  simp [getNext, nextOf, List.getElem?_eq_getElem ha]

theorem getPrev_eq (h : Heap T) (a : Nat) (ha : a < h.length) :
    getPrev h a = some (prevOf h a) := by
  simp [getPrev, prevOf, List.getElem?_eq_getElem ha]

theorem setNext_eq (h : Heap T) (a : Nat) (v : Option Nat) (ha : a < h.length) :
    setNext h a v = some (putNext h a v) := by simp [setNext, ha]

theorem setPrev_eq (h : Heap T) (a : Nat) (v : Option Nat) (ha : a < h.length) :
    setPrev h a v = some (putPrev h a v) := by simp [setPrev, ha]

theorem setValue_eq (h : Heap T) (a : Nat) (v : T) (ha : a < h.length) :
    setValue h a v = some (putValue h a v) := by simp [setValue, ha]

/-! ## Chain lemmas -/

@[simp] theorem chain_nil (g : Nat → Option Nat) (s e : Option Nat) :
    chain g s [] e ↔ s = e := Iff.rfl

@[simp] theorem chain_cons (g : Nat → Option Nat) (s e : Option Nat) (a : Nat)
    (rest : List Nat) : chain g s (a :: rest) e ↔ s = some a ∧ chain g (g a) rest e := Iff.rfl

theorem chain_append (g : Nat → Option Nat) (xs ys : List Nat) (s e : Option Nat) :
    chain g s (xs ++ ys) e ↔ ∃ m, chain g s xs m ∧ chain g m ys e := by
  induction xs generalizing s with
  | nil => simp
  | cons a xs ih =>
    simp only [List.cons_append, chain_cons, ih]
    constructor
    · rintro ⟨hs, m, h1, h2⟩; exact ⟨m, ⟨hs, h1⟩, h2⟩
    · rintro ⟨m, ⟨hs, h1⟩, h2⟩; exact ⟨hs, m, h1, h2⟩

@[simp] theorem chain_append_cons (g : Nat → Option Nat) (xs ys : List Nat) (a : Nat)
    (s e : Option Nat) :
    chain g s (xs ++ a :: ys) e ↔ chain g s xs (some a) ∧ chain g (g a) ys e := by
  rw [chain_append]
  constructor
  · rintro ⟨m, h1, h2, h3⟩; subst h2; exact ⟨h1, h3⟩
  · rintro ⟨h1, h3⟩; exact ⟨some a, h1, rfl, h3⟩

theorem chain_congr (g g' : Nat → Option Nat) (ns : List Nat) (s e : Option Nat)
    (H : ∀ a ∈ ns, g' a = g a) : chain g' s ns e ↔ chain g s ns e := by
  induction ns generalizing s with
  | nil => simp
  | cons a ns ih =>
    simp only [chain_cons]
    rw [H a (List.mem_cons_self a ns), ih _ (fun b hb => H b (List.mem_cons_of_mem a hb))]

theorem chain_of_congr {g g' : Nat → Option Nat} {ns : List Nat} {s e : Option Nat}
    (hc : chain g s ns e) (H : ∀ a ∈ ns, g' a = g a) : chain g' s ns e :=
  (chain_congr g g' ns s e H).2 hc

/-! ## Consequences of well-formedness -/

theorem eq_nil_or_snoc {α : Type} (l : List α) : l = [] ∨ ∃ xs t, l = xs ++ [t] := by
  rcases List.eq_nil_or_concat l with hl | ⟨xs, t, hl⟩
  · exact Or.inl hl
  · exact Or.inr ⟨xs, t, by rw [hl, List.concat_eq_append]⟩

theorem WF_nil_iff (h : Heap T) (l : LinkList T) :
    WF h l [] ↔ l.head = none ∧ l.tail = none ∧ l.len = 0 := by
  simp [WF]

theorem WF.head_eq {h : Heap T} {l : LinkList T} {ns : List Nat} (hwf : WF h l ns) :
    l.head = ns.head? := by
  obtain ⟨_, _, hn, _, _⟩ := hwf
  cases ns with
  | nil => simpa using hn
  | cons a rest => simpa using hn.1

theorem WF.tail_eq {h : Heap T} {l : LinkList T} {ns : List Nat} (hwf : WF h l ns) :
    l.tail = ns.getLast? := by
  obtain ⟨_, _, _, hp, _⟩ := hwf
  rcases eq_nil_or_snoc ns with rfl | ⟨xs, t, rfl⟩
  · simpa using hp
  · simp at hp; simp [hp.1]

theorem WF.lt_length {h : Heap T} {l : LinkList T} {ns : List Nat} (hwf : WF h l ns)
    {a : Nat} (ha : a ∈ ns) : a < h.length := hwf.2.1 a ha

theorem WF.eq_nil_of_head {h : Heap T} {l : LinkList T} {ns : List Nat} (hwf : WF h l ns)
    (hh : l.head = none) : ns = [] := by
  have := hwf.head_eq
  rw [hh] at this
  cases ns with
  | nil => rfl
  | cons a rest => simp at this

theorem WF.eq_nil_of_tail {h : Heap T} {l : LinkList T} {ns : List Nat} (hwf : WF h l ns)
    (ht : l.tail = none) : ns = [] := by
  have := hwf.tail_eq
  rw [ht] at this
  rcases eq_nil_or_snoc ns with rfl | ⟨xs, t, rfl⟩
  · rfl
  · simp at this

/-! ## PushFront -/

theorem PushFront_run_nil [Inhabited T] (h : Heap T) (l : LinkList T) (v : T)
    (hh : l.head = none) :
    PushFront h l v = some (putValue (h ++ [⟨none, none, default⟩]) h.length v,
      { l with head := some h.length, tail := some h.length, len := l.len + 1 }) := by
  simp [PushFront, newListEmptyNode, setValue_eq, hh]

theorem PushFront_run_cons [Inhabited T] (h : Heap T) (l : LinkList T) (v : T) (hd : Nat)
    (hh : l.head = some hd) (hlt : hd < h.length) :
    PushFront h l v = some (putPrev (putNext (putValue (h ++ [⟨none, none, default⟩])
        h.length v) h.length (some hd)) hd (some h.length),
      { l with head := some h.length, len := l.len + 1 }) := by
  simp [PushFront, newListEmptyNode, setValue_eq, setNext_eq, setPrev_eq, hh,
    Nat.lt_succ_of_lt hlt]

theorem PushFront_wf [Inhabited T] (h : Heap T) (l : LinkList T) (ns : List Nat) (v : T)
    (hwf : WF h l ns) :
    ∃ h' l', PushFront h l v = some (h', l') ∧ l'.len = l.len + 1 ∧
      WF h' l' (h.length :: ns) ∧ getValue h' h.length = some v ∧
      (∀ b ∈ ns, getValue h' b = getValue h b) ∧ l'.head = some h.length ∧
      (ns = [] → l'.tail = some h.length) ∧ l'.copy = l.copy ∧ l'.equal = l.equal := by
  have hfresh : ∀ b ∈ ns, b ≠ h.length := fun b hb => Nat.ne_of_lt (hwf.lt_length hb)
  cases ns with
  | nil =>
    obtain ⟨hh, ht, hl⟩ := (WF_nil_iff h l).1 hwf
    refine ⟨_, _, PushFront_run_nil h l v hh, rfl, ?_, ?_, ?_, rfl, fun _ => rfl, rfl, rfl⟩
    · simp [WF, nextOf_alloc, prevOf_alloc, hl]
    · simp [getValue_putValue, getValue_alloc]
    · simp
  | cons hd rest =>
    have hhd : l.head = some hd := by simpa using hwf.head_eq
    have hhdlt : hd < h.length := hwf.lt_length (List.mem_cons_self _ _)
    obtain ⟨hnd, hval, hnx, hpv, hlen⟩ := hwf
    simp only [List.reverse_cons, chain_append_cons, chain_nil] at hpv
    simp only [List.nodup_cons] at hnd
    refine ⟨_, _, PushFront_run_cons h l v hd hhd hhdlt, rfl, ?_, ?_, ?_, rfl, by simp,
      rfl, rfl⟩
    · refine ⟨?_, ?_, ?_, ?_, ?_⟩
      · simp only [List.nodup_cons]
        exact ⟨fun hm => hfresh _ hm rfl, hnd⟩
      · intro b hb
        simp only [length_putPrev, length_putNext, length_putValue, List.length_append,
          List.length_singleton]
        rcases List.mem_cons.1 hb with rfl | hb
        · omega
        · exact Nat.lt_succ_of_lt (hval b hb)
      · rw [chain_cons]
        refine ⟨rfl, ?_⟩
        rw [hhd] at hnx
        have hself : nextOf (putPrev (putNext (putValue (h ++ [⟨none, none, default⟩])
            h.length v) h.length (some hd)) hd (some h.length)) h.length = some hd := by
          simp [nextOf_putNext]
        rw [hself]
        refine chain_of_congr hnx ?_
        intro b hb
        have := hfresh b hb
        simp [nextOf_putNext, nextOf_alloc, this]
      · simp only [List.reverse_cons, List.append_assoc, List.singleton_append,
          chain_append_cons, chain_nil, chain_cons]
        refine ⟨chain_of_congr hpv.1 ?_, ?_, ?_⟩
        · intro b hb
          have hb' : b ∈ rest := List.mem_reverse.1 hb
          have h1 := hfresh b (List.mem_cons_of_mem _ hb')
          have h2 : b ≠ hd := fun e => hnd.1 (e ▸ hb')
          simp [prevOf_putPrev, prevOf_alloc, h1, h2, Nat.lt_succ_of_lt hhdlt]
        · simp [prevOf_putPrev, Nat.lt_succ_of_lt hhdlt]
        · have h2 : h.length ≠ hd := Nat.ne_of_gt hhdlt
          simp [prevOf_putPrev, prevOf_alloc, h2, Nat.lt_succ_of_lt hhdlt]
      · simp [hlen]
    · simp [getValue_putValue]
    · intro b hb
      have := hfresh b hb
      simp [getValue_putValue, getValue_alloc, this]

/-! ## PushBack -/

theorem PushBack_run_nil [Inhabited T] (h : Heap T) (l : LinkList T) (v : T)
    (ht : l.tail = none) :
    PushBack h l v = some (h ++ [⟨none, none, default⟩],
      { l with head := some h.length, tail := some h.length, len := l.len + 1 }) := by
  simp [PushBack, newListEmptyNode, ht]

theorem PushBack_run_snoc [Inhabited T] (h : Heap T) (l : LinkList T) (v : T) (tl : Nat)
    (ht : l.tail = some tl) (hlt : tl < h.length) :
    PushBack h l v = some (putNext (putPrev (h ++ [⟨none, none, default⟩])
        h.length (some tl)) tl (some h.length),
      { l with tail := some h.length, len := l.len + 1 }) := by
  simp [PushBack, newListEmptyNode, setNext_eq, setPrev_eq, ht, Nat.lt_succ_of_lt hlt]

theorem PushBack_wf [Inhabited T] (h : Heap T) (l : LinkList T) (ns : List Nat) (v : T)
    (hwf : WF h l ns) :
    ∃ h' l', PushBack h l v = some (h', l') ∧ l'.len = l.len + 1 ∧
      WF h' l' (ns ++ [h.length]) ∧ getValue h' h.length = some default ∧
      (∀ b, b < h.length → getValue h' b = getValue h b) ∧ l'.tail = some h.length ∧
      (ns = [] → l'.head = some h.length) ∧ l'.copy = l.copy ∧ l'.equal = l.equal ∧
      h'.length = h.length + 1 ∧
      (∀ b, b < h.length → b ∉ ns → nextOf h' b = nextOf h b ∧ prevOf h' b = prevOf h b) := by
  have hfresh : ∀ b ∈ ns, b ≠ h.length := fun b hb => Nat.ne_of_lt (hwf.lt_length hb)
  rcases eq_nil_or_snoc ns with rfl | ⟨xs, tl, rfl⟩
  · obtain ⟨hh, ht, hl⟩ := (WF_nil_iff h l).1 hwf
    refine ⟨_, _, PushBack_run_nil h l v ht, rfl, ?_, ?_, ?_, rfl, fun _ => rfl, rfl, rfl,
      by simp, ?_⟩
    · simp [WF, nextOf_alloc, prevOf_alloc, hl]
    · simp [getValue_alloc]
    · intro b hb
      simp [getValue_alloc, Nat.ne_of_lt hb]
    · intro b hb _
      simp [nextOf_alloc, prevOf_alloc, Nat.ne_of_lt hb]
  · have htl : l.tail = some tl := by simpa using hwf.tail_eq
    have htllt : tl < h.length := hwf.lt_length (by simp)
    obtain ⟨hnd, hval, hnx, hpv, hlen⟩ := hwf
    simp only [chain_append_cons, chain_nil] at hnx
    simp only [List.reverse_append, List.reverse_cons, List.reverse_nil, List.nil_append,
      List.singleton_append, chain_cons] at hpv
    have hnd' := List.nodup_append.1 hnd
    have htlx : tl ∉ xs := fun hm => hnd'.2.2 hm (List.mem_singleton_self tl) 
    have hlt1 : tl < h.length + 1 := Nat.lt_succ_of_lt htllt
    refine ⟨_, _, PushBack_run_snoc h l v tl htl htllt, rfl, ?_, ?_, ?_, rfl, by simp,
      rfl, rfl, by simp, ?_⟩
    · refine ⟨?_, ?_, ?_, ?_, ?_⟩
      · rw [List.nodup_append]
        refine ⟨hnd, List.nodup_singleton _, ?_⟩
        intro b hb hb'
        rw [List.mem_singleton] at hb'
        exact hfresh b hb hb'
      · intro b hb
        simp only [length_putPrev, length_putNext, List.length_append, List.length_singleton]
        rcases List.mem_append.1 hb with hb | hb
        · exact Nat.lt_succ_of_lt (hval b hb)
        · rw [List.mem_singleton] at hb; omega
      · simp only [List.append_assoc, List.singleton_append, chain_append_cons, chain_nil,
          chain_cons]
        refine ⟨chain_of_congr hnx.1 ?_, ?_, ?_⟩
        · intro b hb
          have h1 := hfresh b (List.mem_append_left _ hb)
          have h2 : b ≠ tl := fun e => htlx (e ▸ hb)
          simp [nextOf_putNext, nextOf_alloc, h1, h2, hlt1]
        · simp [nextOf_putNext, hlt1]
        · have h2 : h.length ≠ tl := Nat.ne_of_gt htllt
          simp [nextOf_putNext, nextOf_alloc, h2, hlt1]
      · simp only [List.reverse_append, List.reverse_cons, List.reverse_nil, List.nil_append,
          List.singleton_append, List.cons_append, chain_cons]
        refine ⟨trivial, ?_, ?_⟩
        · simp [prevOf_putPrev]
        · have h2 : tl ≠ h.length := Nat.ne_of_lt htllt
          have hself : prevOf (putNext (putPrev (h ++ [(⟨none, none, default⟩ : listNode T)])
              h.length (some tl)) tl (some h.length)) tl = prevOf h tl := by
            simp [prevOf_putPrev, prevOf_alloc, h2]
          rw [hself]
          refine chain_of_congr hpv.2 ?_
          intro b hb
          have hb' : b ∈ xs := List.mem_reverse.1 hb
          have h1 := hfresh b (List.mem_append_left _ hb')
          simp [prevOf_putPrev, prevOf_alloc, h1]
      · simp only [hlen, List.length_append, List.length_singleton]; push_cast; ring
    · simp [getValue_alloc]
    · intro b hb
      simp [getValue_alloc, Nat.ne_of_lt hb]
    · intro b hb hbn
      have h1 : b ≠ h.length := Nat.ne_of_lt hb
      have h2 : b ≠ tl := fun e => hbn (by simp [e])
      simp [nextOf_putNext, prevOf_putPrev, nextOf_alloc, prevOf_alloc, h1, h2, hlt1]

/-! ## Copy -/

theorem values_congr (h h' : Heap T) (ns : List Nat)
    (H : ∀ b ∈ ns, getValue h' b = getValue h b) : values h' ns = values h ns := by
  unfold values
  exact List.map_congr_left H

theorem getValue_eq_some (h : Heap T) (a : Nat) (ha : a < h.length) :
    ∃ v, getValue h a = some v := by
  simp [getValue, List.getElem?_eq_getElem ha]

theorem copyLoop_spec [Inhabited T] (f : T → T) (rest : List Nat) :
    ∀ (fuel : Nat) (h : Heap T) (i : Option Nat) (nl : LinkList T) (ms : List Nat),
      rest.length < fuel → chain (nextOf h) i rest none →
      (∀ a ∈ rest, a < h.length ∧ a ∉ ms) → WF h nl ms →
      ∃ h' nl', copyLoop f fuel h i nl = some (h', nl') ∧
        WF h' nl' (ms ++ List.range' h.length rest.length) ∧
        nl'.len = nl.len + rest.length ∧
        values h' (List.range' h.length rest.length)
          = List.replicate rest.length (some default) ∧
        nl'.copy = nl.copy ∧ nl'.equal = nl.equal ∧
        h'.length = h.length + rest.length ∧
        (∀ b, b < h.length → getValue h' b = getValue h b) ∧
        (∀ b, b < h.length → b ∉ ms → nextOf h' b = nextOf h b ∧ prevOf h' b = prevOf h b) := by
  induction rest with
  | nil =>
    intro fuel h i nl ms hfuel hch _ hwf
    obtain ⟨k, rfl⟩ : ∃ k, fuel = k + 1 := ⟨fuel - 1, by simp at hfuel; omega⟩
    simp only [chain_nil] at hch
    subst hch
    refine ⟨h, nl, by simp [copyLoop], by simpa using hwf, by simp, by simp [values], rfl, rfl,
      by simp, fun _ _ => rfl, fun _ _ _ => ⟨rfl, rfl⟩⟩
  | cons a rest ih =>
    intro fuel h i nl ms hfuel hch hfr hwf
    obtain ⟨k, rfl⟩ : ∃ k, fuel = k + 1 := ⟨fuel - 1, by simp at hfuel; omega⟩
    rw [chain_cons] at hch
    obtain ⟨hi, hch⟩ := hch
    subst hi
    have ha := hfr a (List.mem_cons_self _ _)
    obtain ⟨v, hv⟩ := getValue_eq_some h a ha.1
    obtain ⟨h1, nl1, hrun, hlen1, hwf1, hval1, hframe1, -, -, hcopy1, hequal1, hlength1, hlink1⟩ :=
      PushBack_wf h nl ms (f v) hwf
    have ha1 : a < h1.length := by rw [hlength1]; omega
    have hch1 : chain (nextOf h1) (nextOf h1 a) rest none := by
      rw [(hlink1 a ha.1 ha.2).1]
      refine chain_of_congr hch ?_
      intro b hb
      have hb' := hfr b (List.mem_cons_of_mem _ hb)
      exact (hlink1 b hb'.1 hb'.2).1
    have hfr1 : ∀ b ∈ rest, b < h1.length ∧ b ∉ ms ++ [h.length] := by
      intro b hb
      have hb' := hfr b (List.mem_cons_of_mem _ hb)
      refine ⟨by rw [hlength1]; omega, ?_⟩
      intro hm
      rcases List.mem_append.1 hm with hm | hm
      · exact hb'.2 hm
      · rw [List.mem_singleton] at hm; omega
    have hfuel1 : rest.length < k := by simp at hfuel; omega
    obtain ⟨h2, nl2, hrun2, hwf2, hlen2, hval2, hcopy2, hequal2, hlength2, hframe2, hlink2⟩ :=
      ih k h1 (nextOf h1 a) nl1 (ms ++ [h.length]) hfuel1 hch1 hfr1 hwf1
    refine ⟨h2, nl2, ?_, ?_, ?_, ?_, by rw [hcopy2, hcopy1], by rw [hequal2, hequal1], ?_, ?_, ?_⟩
    · simp [copyLoop, hv, hrun, getNext_eq h1 a ha1, hrun2]
    · rw [hlength1] at hwf2
      simpa [List.range'_succ] using hwf2
    · rw [hlen2, hlen1]; push_cast [List.length_cons]; ring
    · rw [hlength1] at hval2
      have h0 : getValue h2 h.length = some default := by
        rw [hframe2 h.length (by rw [hlength1]; omega), hval1]
      simp only [List.length_cons, List.range'_succ, List.replicate_succ]
      unfold values at hval2 ⊢
      rw [List.map_cons, h0, hval2]
    · rw [hlength2, hlength1, List.length_cons]; omega
    · intro b hb
      rw [hframe2 b (by rw [hlength1]; omega), hframe1 b hb]
    · intro b hb hbm
      have hbm1 : b ∉ ms ++ [h.length] := by
        intro hm
        rcases List.mem_append.1 hm with hm | hm
        · exact hbm hm
        · rw [List.mem_singleton] at hm; omega
      have e2 := hlink2 b (by rw [hlength1]; omega) hbm1
      have e1 := hlink1 b hb hbm
      exact ⟨e2.1.trans e1.1, e2.2.trans e1.2⟩

theorem Copy_spec [Inhabited T] (fuel : Nat) (h : Heap T) (l : LinkList T) (ns : List Nat)
    (f : T → T) (hwf : WF h l ns) (hf : l.copy = some f) (hfuel : ns.length < fuel) :
    ∃ h' nl, Copy fuel h l = some (h', some nl, none) ∧
      WF h' nl (List.range' h.length ns.length) ∧ nl.len = l.len ∧
      values h' (List.range' h.length ns.length) = List.replicate ns.length (some default) ∧
      nl.copy = l.copy ∧ nl.equal = l.equal ∧
      h'.length = h.length + ns.length ∧
      (∀ b, b < h.length → getValue h' b = getValue h b ∧ nextOf h' b = nextOf h b ∧
        prevOf h' b = prevOf h b) := by
  have hwf0 : WF h (⟨none, none, 0, l.copy, l.equal⟩ : LinkList T) [] := by
    simp [WF_nil_iff]
  obtain ⟨h', nl, hrun, hwf', hlen, hval, hcopy, hequal, hlength, hframe, hlink⟩ :=
    copyLoop_spec f ns fuel h l.head _ [] hfuel hwf.2.2.1
      (fun a ha => ⟨hwf.lt_length ha, by simp⟩) hwf0
  refine ⟨h', nl, ?_, by simpa using hwf', ?_, hval, hcopy, hequal, hlength, ?_⟩
  · rw [hf] at hrun
    simp [Copy, hf, newList, hrun]
  · rw [hlen, hwf.2.2.2.2]; simp
  · intro b hb
    exact ⟨hframe b hb, hlink b hb (by simp)⟩

/-! ## Search -/

theorem searchLoop_spec (eq : T → T → Bool) (key : T) (h : Heap T) (rest : List Nat) :
    ∀ (fuel : Nat) (i : Option Nat), rest.length < fuel → chain (nextOf h) i rest none →
      (∀ a ∈ rest, a < h.length) →
      (∃ xs a ys v, rest = xs ++ a :: ys ∧ getValue h a = some v ∧ eq v key = true ∧
          (∀ x ∈ xs, ∃ w, getValue h x = some w ∧ eq w key = false) ∧
          searchLoop eq key fuel h i = some (some a, none)) ∨
        ((∀ x ∈ rest, ∃ w, getValue h x = some w ∧ eq w key = false) ∧
          searchLoop eq key fuel h i = some (none, none)) := by
  induction rest with
  | nil =>
    intro fuel i hfuel hch _
    obtain ⟨k, rfl⟩ : ∃ k, fuel = k + 1 := ⟨fuel - 1, by simp at hfuel; omega⟩
    simp only [chain_nil] at hch
    subst hch
    exact Or.inr ⟨by simp, by simp [searchLoop]⟩
  | cons a rest ih =>
    intro fuel i hfuel hch hval
    obtain ⟨k, rfl⟩ : ∃ k, fuel = k + 1 := ⟨fuel - 1, by simp at hfuel; omega⟩
    rw [chain_cons] at hch
    obtain ⟨hi, hch⟩ := hch
    subst hi
    have ha := hval a (List.mem_cons_self _ _)
    obtain ⟨v, hv⟩ := getValue_eq_some h a ha
    by_cases hev : eq v key = true
    · exact Or.inl ⟨[], a, rest, v, rfl, hv, hev, by simp, by simp [searchLoop, hv, hev]⟩
    · have hev' : eq v key = false := by simpa using hev
      have hfuel1 : rest.length < k := by simp at hfuel; omega
      have hrun : searchLoop eq key (k + 1) h (some a)
          = searchLoop eq key k h (nextOf h a) := by
        simp [searchLoop, hv, hev', getNext_eq h a ha]
      rcases ih k (nextOf h a) hfuel1 hch (fun b hb => hval b (List.mem_cons_of_mem _ hb)) with
        ⟨xs, b, ys, w, hsplit, hw, hew, hxs, hres⟩ | ⟨hall, hres⟩
      · refine Or.inl ⟨a :: xs, b, ys, w, by rw [hsplit]; rfl, hw, hew, ?_, by rw [hrun, hres]⟩
        intro x hx
        rcases List.mem_cons.1 hx with rfl | hx
        · exact ⟨v, hv, hev'⟩
        · exact hxs x hx
      · refine Or.inr ⟨?_, by rw [hrun, hres]⟩
        intro x hx
        rcases List.mem_cons.1 hx with rfl | hx
        · exact ⟨v, hv, hev'⟩
        · exact hall x hx

/-! ## Index -/

theorem indexLoop_spec (h : Heap T) (ns : List Nat) :
    ∀ (k : Nat) (s : Option Nat), chain (nextOf h) s ns none → (∀ a ∈ ns, a < h.length) →
      k < ns.length → indexLoop h k s = some ns[k]? := by
  induction ns with
  | nil => intro k s _ _ hk; simp at hk
  | cons a rest ih =>
    intro k s hch hval hk
    rw [chain_cons] at hch
    obtain ⟨hs, hch⟩ := hch
    subst hs
    cases k with
    | zero => simp [indexLoop]
    | succ k =>
      have ha := hval a (List.mem_cons_self _ _)
      have hk' : k < rest.length := by simp at hk; omega
      have := ih k (nextOf h a) hch (fun b hb => hval b (List.mem_cons_of_mem _ hb)) hk'
      simp [indexLoop, deref, getNext_eq h a ha, this]

/-! ## Remove -/

theorem getNext_ite (h : Heap T) (a : Nat) :
    getNext h a = if a < h.length then some (nextOf h a) else none := by
  by_cases ha : a < h.length
  · simp [ha, getNext_eq h a ha]
  · simp [ha, getNext, List.getElem?_eq_none (Nat.le_of_not_lt ha)]

theorem getPrev_ite (h : Heap T) (a : Nat) :
    getPrev h a = if a < h.length then some (prevOf h a) else none := by
  by_cases ha : a < h.length
  · simp [ha, getPrev_eq h a ha]
  · simp [ha, getPrev, List.getElem?_eq_none (Nat.le_of_not_lt ha)]

theorem Remove_pointwise (h : Heap T) (l : LinkList T) (n : Nat) (hn : n < h.length)
    (hp : ∀ p, prevOf h n = some p → p < h.length)
    (hq : ∀ q, nextOf h n = some q → q < h.length) :
    ∃ h' l', Remove h l n = some (h', l') ∧ h'.length = h.length ∧
      (∀ b, nextOf h' b = if prevOf h n = some b then nextOf h n else nextOf h b) ∧
      (∀ b, prevOf h' b = if nextOf h n = some b then prevOf h n else prevOf h b) ∧
      (∀ b, getValue h' b = getValue h b) ∧
      l'.head = (if prevOf h n = none then nextOf h n else l.head) ∧
      l'.tail = (if nextOf h n = none then prevOf h n else l.tail) ∧
      l'.len = l.len - 1 ∧ l'.copy = l.copy ∧ l'.equal = l.equal := by
  cases hP : prevOf h n with
  | none =>
    cases hN : nextOf h n with
    | none =>
      refine ⟨h, { l with head := none, tail := none, len := l.len - 1 }, ?_, rfl, ?_, ?_,
        fun _ => rfl, rfl, rfl, rfl, rfl, rfl⟩
      · simp [Remove, getPrev_ite, getNext_ite, hn, hP, hN]
      · intro b; simp
      · intro b; simp
    | some q =>
      have hq' := hq q hN
      refine ⟨putPrev h q none, { l with head := some q, len := l.len - 1 }, ?_, by simp, ?_, ?_,
        by simp, rfl, rfl, rfl, rfl, rfl⟩
      · simp [Remove, getPrev_ite, getNext_ite, setPrev, hn, hP, hN, hq']
      · intro b; simp
      · intro b
        rw [prevOf_putPrev h q b none hq']
        by_cases hb : b = q
        · simp [hb]
        · have : ¬ q = b := fun e => hb e.symm
          simp [hb, this]
  | some p =>
    have hp' := hp p hP
    cases hN : nextOf h n with
    | none =>
      refine ⟨putNext h p none, { l with tail := some p, len := l.len - 1 }, ?_, by simp, ?_, ?_,
        by simp, rfl, rfl, rfl, rfl, rfl⟩
      · simp [Remove, getPrev_ite, getNext_ite, setNext, hn, hP, hN, hp', nextOf_putNext]
      · intro b
        rw [nextOf_putNext h p b none hp']
        by_cases hb : b = p
        · simp [hb]
        · have : ¬ p = b := fun e => hb e.symm
          simp [hb, this]
      · intro b; simp
    | some q =>
      have hq' := hq q hN
      refine ⟨putPrev (putNext h p (some q)) q (some p), { l with len := l.len - 1 }, ?_,
        by simp, ?_, ?_, by simp, rfl, rfl, rfl, rfl, rfl⟩
      · by_cases hnp : n = p
        · subst hnp
          simp [Remove, getPrev_ite, getNext_ite, setNext, setPrev, hn, hP, hN, hq',
            nextOf_putNext]
        · simp [Remove, getPrev_ite, getNext_ite, setNext, setPrev, hn, hP, hN, hp', hq',
            nextOf_putNext, hnp]
      · intro b
        rw [nextOf_putPrev, nextOf_putNext h p b _ hp']
        by_cases hb : b = p
        · simp [hb]
        · have : ¬ p = b := fun e => hb e.symm
          simp [hb, this]
      · intro b
        rw [prevOf_putPrev _ q b _ (by simpa using hq'), prevOf_putNext]
        by_cases hb : b = q
        · simp [hb]
        · have : ¬ q = b := fun e => hb e.symm
          simp [hb, this]

theorem chain_head_eq (g : Nat → Option Nat) (s : Option Nat) (ns : List Nat)
    (hc : chain g s ns none) : s = ns.head? := by
  cases ns with
  | nil => simpa using hc
  | cons a rest => simpa using hc.1

theorem chain_splice (g g' : Nat → Option Nat) (xs ys : List Nat) (n : Nat)
    (s s' o e : Option Nat) (hc : chain g s (xs ++ n :: ys) e)
    (hnd : (xs ++ n :: ys).Nodup) (ho : o = xs.getLast?)
    (hg : ∀ b ∈ xs ++ ys, g' b = if o = some b then g n else g b)
    (hs : s' = if o = none then g n else s) : chain g' s' (xs ++ ys) e := by
  rw [chain_append_cons] at hc
  obtain ⟨hc1, hc2⟩ := hc
  rcases eq_nil_or_snoc xs with rfl | ⟨xs', p, rfl⟩
  · simp only [List.getLast?_nil] at ho
    subst ho
    simp only [if_true] at hs
    subst hs
    simp only [List.nil_append] at hg ⊢
    refine chain_of_congr hc2 ?_
    intro b hb
    simp [hg b hb]
  · simp only [List.getLast?_append, List.getLast?_singleton, Option.or_some] at ho
    subst ho
    have hs2 : s' = s := by rw [hs]; simp
    subst hs2
    simp only [chain_append_cons, chain_nil] at hc1
    rw [List.append_assoc, List.singleton_append, chain_append_cons]
    have hnd1 : ∀ b, b ∈ xs' ++ n :: ys → b ≠ p := by
      intro b hb e
      subst e
      rw [List.append_assoc, List.singleton_append] at hnd
      have := (List.nodup_append.1 hnd).2.1
      rw [List.nodup_cons] at this
      rcases List.mem_append.1 hb with hb | hb
      · exact (List.nodup_append.1 hnd).2.2 hb (List.mem_cons_self _ _)
      · exact this.1 hb
    refine ⟨chain_of_congr hc1.1 ?_, ?_⟩
    · intro b hb
      have hne := hnd1 b (List.mem_append_left _ hb)
      have hne' : ¬ p = b := fun e => hne e.symm
      rw [hg b (by simp [hb])]
      simp [hne']
    · have hp : g' p = g n := by rw [hg p (by simp)]; simp
      rw [hp]
      refine chain_of_congr hc2 ?_
      intro b hb
      have hne := hnd1 b (List.mem_append_right _ (List.mem_cons_of_mem _ hb))
      have hne' : ¬ p = b := fun e => hne e.symm
      rw [hg b (by simp [hb])]
      simp [hne']

theorem WF.prevOf_eq {h : Heap T} {l : LinkList T} {xs ys : List Nat} {n : Nat}
    (hwf : WF h l (xs ++ n :: ys)) : prevOf h n = xs.getLast? := by
  have hpv := hwf.2.2.2.1
  simp only [List.reverse_append, List.reverse_cons, List.append_assoc, List.singleton_append,
    chain_append_cons] at hpv
  have := chain_head_eq _ _ _ hpv.2
  simpa using this

theorem WF.nextOf_eq {h : Heap T} {l : LinkList T} {xs ys : List Nat} {n : Nat}
    (hwf : WF h l (xs ++ n :: ys)) : nextOf h n = ys.head? := by
  have hnx := hwf.2.2.1
  simp only [chain_append_cons] at hnx
  exact chain_head_eq _ _ _ hnx.2

theorem Remove_wf (h : Heap T) (l : LinkList T) (xs ys : List Nat) (n : Nat)
    (hwf : WF h l (xs ++ n :: ys)) :
    ∃ h' l', Remove h l n = some (h', l') ∧ WF h' l' (xs ++ ys) ∧ l'.len = l.len - 1 ∧
      (∀ b, getValue h' b = getValue h b) ∧
      l'.head = (if xs = [] then ys.head? else l.head) ∧
      l'.tail = (if ys = [] then xs.getLast? else l.tail) ∧
      (∀ p, xs.getLast? = some p → nextOf h' p = ys.head?) ∧
      (∀ q, ys.head? = some q → prevOf h' q = xs.getLast?) ∧
      l'.copy = l.copy ∧ l'.equal = l.equal ∧ h'.length = h.length ∧
      (∀ b, b ∉ xs ++ n :: ys → nextOf h' b = nextOf h b ∧ prevOf h' b = prevOf h b) := by
  have hP := hwf.prevOf_eq
  have hN := hwf.nextOf_eq
  have hn : n < h.length := hwf.lt_length (by simp)
  have hp : ∀ p, prevOf h n = some p → p < h.length := by
    intro p hpp
    rw [hP] at hpp
    exact hwf.lt_length (List.mem_append_left _ (List.mem_of_mem_getLast? hpp))
  have hq : ∀ q, nextOf h n = some q → q < h.length := by
    intro q hqq
    rw [hN] at hqq
    exact hwf.lt_length (List.mem_append_right _ (List.mem_cons_of_mem _ (List.mem_of_mem_head? hqq)))
  obtain ⟨h', l', hrun, hlength, hnx', hpv', hvals, hhead, htail, hlen, hcopy, hequal⟩ :=
    Remove_pointwise h l n hn hp hq
  obtain ⟨hnd, hval, hnx, hpv, hl⟩ := hwf
  have hnd2 : (xs ++ ys).Nodup := by
    have := List.nodup_append.1 hnd
    rw [List.nodup_cons] at this
    exact List.nodup_append.2 ⟨this.1, this.2.1.2,
      fun a ha hb => this.2.2 ha (List.mem_cons_of_mem _ hb)⟩
  refine ⟨h', l', hrun, ⟨hnd2, ?_, ?_, ?_, ?_⟩, hlen, hvals, ?_, ?_, ?_, ?_, hcopy, hequal,
    hlength, ?_⟩
  · intro a ha
    rw [hlength]
    apply hval
    rcases List.mem_append.1 ha with ha | ha
    · exact List.mem_append_left _ ha
    · exact List.mem_append_right _ (List.mem_cons_of_mem _ ha)
  · exact chain_splice (nextOf h) (nextOf h') xs ys n l.head l'.head (prevOf h n) none hnx hnd hP
      (fun b _ => hnx' b) hhead
  · rw [List.reverse_append]
    have hpv2 : chain (prevOf h) l.tail (ys.reverse ++ n :: xs.reverse) none := by
      simpa using hpv
    have hnd3 : (ys.reverse ++ n :: xs.reverse).Nodup := by
      have : (ys.reverse ++ n :: xs.reverse) = (xs ++ n :: ys).reverse := by simp
      rw [this]; exact List.nodup_reverse.2 hnd
    exact chain_splice (prevOf h) (prevOf h') ys.reverse xs.reverse n l.tail l'.tail (nextOf h n)
      none hpv2 hnd3 (by rw [hN]; simp) (fun b _ => hpv' b) htail
  · simp only [List.length_append, List.length_cons] at hl ⊢
    rw [hlen, hl]; push_cast; ring
  · rw [hhead, hP, hN]
    rcases eq_nil_or_snoc xs with rfl | ⟨xs', p, rfl⟩ <;> simp
  · rw [htail, hP, hN]
    cases ys <;> simp
  · intro p hp'
    rw [hnx' p, hP, hN]; simp [hp']
  · intro q hq'
    rw [hpv' q, hP, hN]; simp [hq']
  · intro b hb
    have h1 : ¬ prevOf h n = some b := by
      intro e
      rw [hP] at e
      exact hb (List.mem_append_left _ (List.mem_of_mem_getLast? e))
    have h2 : ¬ nextOf h n = some b := by
      intro e
      rw [hN] at e
      exact hb (List.mem_append_right _ (List.mem_cons_of_mem _ (List.mem_of_mem_head? e)))
    rw [hnx' b, hpv' b]; simp [h1, h2]

/-! ## InsertBefore -/

theorem InsertBefore_pointwise (h : Heap T) (l : LinkList T) (a m : Nat) (ha : a < h.length)
    (hm : m < h.length) (hma : m ≠ a)
    (hp : ∀ p, prevOf h a = some p → p < h.length ∧ p ≠ m) :
    ∃ h' l', InsertBefore h l a m = some (h', l') ∧ h'.length = h.length ∧
      (∀ b, nextOf h' b = if prevOf h a = some b then some m
        else if b = m then some a else nextOf h b) ∧
      (∀ b, prevOf h' b = if b = a then some m else if b = m then prevOf h a else prevOf h b) ∧
      (∀ b, getValue h' b = getValue h b) ∧
      l'.head = (if prevOf h a = none then some m else l.head) ∧
      l'.tail = l.tail ∧ l'.len = l.len + 1 ∧ l'.copy = l.copy ∧ l'.equal = l.equal := by
  have ham : a ≠ m := fun e => hma e.symm
  cases hP : prevOf h a with
  | none =>
    refine ⟨putPrev (putNext (putPrev h m none) m (some a)) a (some m),
      { l with head := some m, len := l.len + 1 }, ?_, by simp, ?_, ?_, by simp, rfl, rfl, rfl,
      rfl, rfl⟩
    · simp [InsertBefore, getPrev_ite, setNext, setPrev, ha, hm, hP, prevOf_putPrev, ham]
    · intro b
      simp [nextOf_putNext, hm]
    · intro b
      by_cases hba : b = a
      · subst hba; simp [prevOf_putPrev, ha]
      · by_cases hbm : b = m
        · subst hbm; simp [prevOf_putPrev, ha, hm, hba]
        · simp [prevOf_putPrev, ha, hm, hba, hbm]
  | some p =>
    obtain ⟨hplt, hpm⟩ := hp p hP
    refine ⟨putPrev (putNext (putNext (putPrev h m (some p)) m (some a)) p (some m)) a (some m),
      { l with len := l.len + 1 }, ?_, by simp, ?_, ?_, by simp, rfl, rfl, rfl, rfl, rfl⟩
    · simp [InsertBefore, getPrev_ite, setNext, setPrev, ha, hm, hP, prevOf_putPrev, ham, hplt]
    · intro b
      by_cases hbp : b = p
      · subst hbp; simp [nextOf_putNext, hm, hplt]
      · have : ¬ p = b := fun e => hbp e.symm
        simp [nextOf_putNext, hm, hplt, hbp, this]
    · intro b
      by_cases hba : b = a
      · subst hba; simp [prevOf_putPrev, ha]
      · by_cases hbm : b = m
        · subst hbm; simp [prevOf_putPrev, ha, hm, hba]
        · simp [prevOf_putPrev, ha, hm, hba, hbm]

theorem chain_insert (g g' : Nat → Option Nat) (xs ys : List Nat) (a m : Nat)
    (s s' o e : Option Nat) (hc : chain g s (xs ++ a :: ys) e)
    (hnd : (xs ++ a :: ys).Nodup) (hm : m ∉ xs ++ a :: ys) (ho : o = xs.getLast?)
    (hg : ∀ b ∈ xs ++ a :: ys, g' b = if o = some b then some m else g b)
    (hgm : g' m = some a)
    (hs : s' = if o = none then some m else s) : chain g' s' (xs ++ m :: a :: ys) e := by
  rw [chain_append_cons] at hc
  obtain ⟨hc1, hc2⟩ := hc
  rw [chain_append_cons, chain_cons, hgm]
  have hnd' := List.nodup_append.1 hnd
  rw [List.nodup_cons] at hnd'
  have htail : chain g' (g' a) ys e := by
    have hga : g' a = g a := by
      rw [hg a (by simp)]
      have : ¬ o = some a := by
        intro e'
        rw [ho] at e'
        exact hnd'.2.2 (List.mem_of_mem_getLast? e') (List.mem_cons_self _ _)
      simp [this]
    rw [hga]
    refine chain_of_congr hc2 ?_
    intro b hb
    rw [hg b (by simp [hb])]
    have : ¬ o = some b := by
      intro e'
      rw [ho] at e'
      exact hnd'.2.2 (List.mem_of_mem_getLast? e') (List.mem_cons_of_mem _ hb)
    simp [this]
  refine ⟨?_, rfl, htail⟩
  rcases eq_nil_or_snoc xs with rfl | ⟨xs', p, rfl⟩
  · simp only [List.getLast?_nil] at ho
    subst ho
    simpa using hs
  · simp only [List.getLast?_append, List.getLast?_singleton, Option.or_some] at ho
    subst ho
    have hs2 : s' = s := by rw [hs]; simp
    subst hs2
    simp only [chain_append_cons, chain_nil] at hc1 ⊢
    refine ⟨chain_of_congr hc1.1 ?_, ?_⟩
    · intro b hb
      rw [hg b (by simp [hb])]
      have : ¬ p = b := by
        intro e'
        subst e'
        exact (List.nodup_append.1 hnd'.1).2.2 hb (List.mem_singleton_self _)
      simp [this]
    · rw [hg p (by simp)]; simp

theorem InsertBefore_wf (h : Heap T) (l : LinkList T) (xs ys : List Nat) (a m : Nat)
    (hwf : WF h l (xs ++ a :: ys)) (hm : m < h.length) (hmn : m ∉ xs ++ a :: ys) :
    ∃ h' l', InsertBefore h l a m = some (h', l') ∧ WF h' l' (xs ++ m :: a :: ys) ∧
      l'.len = l.len + 1 ∧ (∀ b, getValue h' b = getValue h b) ∧
      l'.head = (if xs = [] then some m else l.head) ∧ l'.tail = l.tail ∧
      l'.copy = l.copy ∧ l'.equal = l.equal ∧ h'.length = h.length ∧
      (∀ b, b ∉ xs ++ m :: a :: ys → nextOf h' b = nextOf h b ∧ prevOf h' b = prevOf h b) := by
  have hP := hwf.prevOf_eq
  have ha : a < h.length := hwf.lt_length (by simp)
  have hma : m ≠ a := fun e => hmn (by simp [e])
  have hp : ∀ p, prevOf h a = some p → p < h.length ∧ p ≠ m := by
    intro p hpp
    rw [hP] at hpp
    have hpx : p ∈ xs := List.mem_of_mem_getLast? hpp
    exact ⟨hwf.lt_length (List.mem_append_left _ hpx),
      fun e => hmn (e ▸ List.mem_append_left _ hpx)⟩
  obtain ⟨h', l', hrun, hlength, hnx', hpv', hvals, hhead, htail, hlen, hcopy, hequal⟩ :=
    InsertBefore_pointwise h l a m ha hm hma hp
  obtain ⟨hnd, hval, hnx, hpv, hl⟩ := hwf
  have hnd' := List.nodup_append.1 hnd
  rw [List.nodup_cons] at hnd'
  refine ⟨h', l', hrun, ⟨?_, ?_, ?_, ?_, ?_⟩, hlen, hvals, ?_, htail, hcopy, hequal, hlength, ?_⟩
  · rw [List.nodup_append, List.nodup_cons, List.nodup_cons]
    refine ⟨hnd'.1, ⟨fun hmm => hmn (List.mem_append_right _ hmm), hnd'.2.1⟩, ?_⟩
    intro b hb hb'
    rcases List.mem_cons.1 hb' with rfl | hb'
    · exact hmn (List.mem_append_left _ hb)
    · exact hnd'.2.2 hb hb'
  · intro b hb
    rw [hlength]
    rcases List.mem_append.1 hb with hb | hb
    · exact hval b (List.mem_append_left _ hb)
    · rcases List.mem_cons.1 hb with rfl | hb
      · exact hm
      · exact hval b (List.mem_append_right _ hb)
  · refine chain_insert (nextOf h) (nextOf h') xs ys a m l.head l'.head (prevOf h a) none hnx hnd hmn
      hP ?_ ?_ hhead
    · intro b hb
      rw [hnx' b]
      have : b ≠ m := fun e => hmn (e ▸ hb)
      simp [this]
    · rw [hnx' m]
      have : ¬ prevOf h a = some m := fun e => (hp m e).2 rfl
      simp [this]
  · have hpv2 : chain (prevOf h) l.tail (ys.reverse ++ a :: xs.reverse) none := by
      simpa using hpv
    rw [chain_append_cons] at hpv2
    have hgoal : (xs ++ m :: a :: ys).reverse = ys.reverse ++ a :: m :: xs.reverse := by simp
    rw [hgoal, chain_append_cons, chain_cons, htail]
    refine ⟨chain_of_congr hpv2.1 ?_, ?_, ?_⟩
    · intro b hb
      have hb' : b ∈ ys := List.mem_reverse.1 hb
      have h1 : b ≠ a := fun e => hnd'.2.1.1 (e ▸ hb')
      have h2 : b ≠ m := fun e => hmn (e ▸ List.mem_append_right _ (List.mem_cons_of_mem _ hb'))
      rw [hpv' b]; simp [h1, h2]
    · rw [hpv' a]; simp
    · have hpm : prevOf h' m = prevOf h a := by rw [hpv' m]; simp [hma]
      rw [hpm]
      refine chain_of_congr hpv2.2 ?_
      intro b hb
      have hb' : b ∈ xs := List.mem_reverse.1 hb
      have h1 : b ≠ a := fun e => hnd'.2.2 hb' (e ▸ List.mem_cons_self _ _)
      have h2 : b ≠ m := fun e => hmn (e ▸ List.mem_append_left _ hb')
      rw [hpv' b]; simp [h1, h2]
  · simp only [List.length_append, List.length_cons] at hl ⊢
    rw [hlen, hl]; push_cast; ring
  · rw [hhead, hP]
    rcases eq_nil_or_snoc xs with rfl | ⟨xs', p, rfl⟩ <;> simp
  · intro b hb
    have h1 : ¬ prevOf h a = some b := by
      intro e
      rw [hP] at e
      exact hb (List.mem_append_left _ (List.mem_of_mem_getLast? e))
    have h2 : b ≠ m := fun e => hb (by simp [e])
    have h3 : b ≠ a := fun e => hb (by simp [e])
    rw [hnx' b, hpv' b]; simp [h1, h2, h3]

/-! ## Concat -/

theorem Concat_nil (h : Heap T) (l : LinkList T) : Concat h l none = some (h, l) := rfl

theorem Concat_empty (h : Heap T) (l other : LinkList T) (ho : other.head = none) :
    Concat h l (some other) = some (h, l) := by
  simp [Concat, ho]

theorem Concat_wf (h : Heap T) (l other : LinkList T) (ns ms : List Nat)
    (hwf : WF h l ns) (hwo : WF h other ms) (hdis : ∀ a ∈ ns, a ∉ ms) (hne : ms ≠ []) :
    ∃ h' l', Concat h l (some other) = some (h', l') ∧ WF h' l' (ns ++ ms) ∧
      l'.len = l.len + other.len ∧ (∀ b, getValue h' b = getValue h b) ∧
      l'.tail = other.tail ∧ l'.copy = l.copy ∧ l'.equal = l.equal ∧ h'.length = h.length ∧
      (∀ b, b ∉ ns ++ ms → nextOf h' b = nextOf h b ∧ prevOf h' b = prevOf h b) := by
  cases ms with
  | nil => exact absurd rfl hne
  | cons mh ms' =>
    have hoh : other.head = some mh := by simpa using hwo.head_eq
    have hmhlt : mh < h.length := hwo.lt_length (List.mem_cons_self _ _)
    rcases eq_nil_or_snoc ns with rfl | ⟨ns', t, rfl⟩
    · obtain ⟨hh, ht, hl⟩ := (WF_nil_iff h l).1 hwf
      refine ⟨h, { l with head := other.head, tail := other.tail, len := l.len + other.len },
        by simp [Concat, hoh, ht], ?_, rfl, fun _ => rfl, rfl, rfl, rfl, rfl,
        fun _ _ => ⟨rfl, rfl⟩⟩
      obtain ⟨hnd, hval, hnx, hpv, hlen⟩ := hwo
      exact ⟨hnd, hval, hnx, hpv, by simp [hl, hlen]⟩
    · have htl : l.tail = some t := by simpa using hwf.tail_eq
      have htlt : t < h.length := hwf.lt_length (by simp)
      have htm : t ≠ mh := fun e => hdis t (by simp) (by simp [e])
      have hmt : mh ≠ t := fun e => htm e.symm
      obtain ⟨hnd, hval, hnx, hpv, hlen⟩ := hwf
      obtain ⟨hndo, hvalo, hnxo, hpvo, hleno⟩ := hwo
      simp only [chain_append_cons, chain_nil] at hnx
      simp only [List.reverse_append, List.reverse_cons, List.reverse_nil, List.nil_append,
        List.singleton_append, chain_cons] at hpv
      rw [chain_cons] at hnxo
      simp only [List.reverse_cons, chain_append_cons, chain_nil] at hpvo
      have hnd' := List.nodup_append.1 hnd
      rw [List.nodup_cons] at hndo
      have htx : t ∉ ns' := fun hm => hnd'.2.2 hm (List.mem_singleton_self t)
      have hN : ∀ b, nextOf (putPrev (putNext h t (some mh)) mh (some t)) b
          = if b = t then some mh else nextOf h b := by
        intro b; simp [nextOf_putNext, htlt]
      have hPv : ∀ b, prevOf (putPrev (putNext h t (some mh)) mh (some t)) b
          = if b = mh then some t else prevOf h b := by
        intro b; rw [prevOf_putPrev _ _ _ _ (by simpa using hmhlt)]; simp
      refine ⟨putPrev (putNext h t (some mh)) mh (some t),
        { l with tail := other.tail, len := l.len + other.len },
        by simp [Concat, hoh, htl, setNext, setPrev, htlt, hmhlt], ⟨?_, ?_, ?_, ?_, ?_⟩, rfl,
        by simp, rfl, rfl, rfl, by simp, ?_⟩
      · rw [List.nodup_append]
        exact ⟨hnd, List.nodup_cons.2 hndo, fun b hb hb' => hdis b hb hb'⟩
      · intro b hb
        simp only [length_putPrev, length_putNext]
        rcases List.mem_append.1 hb with hb | hb
        · exact hval b hb
        · exact hvalo b hb
      · simp only [List.append_assoc, List.singleton_append, chain_append_cons, chain_cons]
        refine ⟨chain_of_congr hnx.1 ?_, ?_, ?_⟩
        · intro b hb
          have h2 : b ≠ t := fun e => htx (e ▸ hb)
          rw [hN b]; simp [h2]
        · rw [hN t]; simp
        · rw [hN mh, if_neg hmt]
          refine chain_of_congr hnxo.2 ?_
          intro b hb
          have h2 : b ≠ t := fun e => hdis t (by simp) (e ▸ List.mem_cons_of_mem _ hb)
          rw [hN b]; simp [h2]
      · show chain _ other.tail _ none
        have hgoal : (ns' ++ [t] ++ mh :: ms').reverse = ms'.reverse ++ mh :: t :: ns'.reverse := by
          simp
        rw [hgoal, chain_append_cons, chain_cons]
        refine ⟨chain_of_congr hpvo.1 ?_, ?_, ?_⟩
        · intro b hb
          have hb' : b ∈ ms' := List.mem_reverse.1 hb
          have h2 : b ≠ mh := fun e => hndo.1 (e ▸ hb')
          rw [hPv b]; simp [h2]
        · rw [hPv mh]; simp
        · rw [hPv t, if_neg htm]
          refine chain_of_congr hpv.2 ?_
          intro b hb
          have hb' : b ∈ ns' := List.mem_reverse.1 hb
          have h2 : b ≠ mh := fun e => hdis b (List.mem_append_left _ hb') (by simp [e])
          rw [hPv b]; simp [h2]
      · show l.len + other.len = _
        rw [hlen, hleno]; simp only [List.length_append, List.length_cons]; push_cast; ring
      · intro b hb
        have h1 : b ≠ t := fun e => hb (by simp [e])
        have h2 : b ≠ mh := fun e => hb (by simp [e])
        rw [hN b, hPv b]; simp [h1, h2]

/-! ## Rotate and RotateBack -/

theorem heap_ext (h h' : Heap T) (hlen : h'.length = h.length)
    (hn : ∀ b, nextOf h' b = nextOf h b) (hp : ∀ b, prevOf h' b = prevOf h b)
    (hv : ∀ b, getValue h' b = getValue h b) : h' = h := by
  apply List.ext_getElem? 
  intro b
  by_cases hb : b < h.length
  · have hb' : b < h'.length := by rw [hlen]; exact hb
    have e1 := hn b
    have e2 := hp b
    have e3 := hv b
    simp only [nextOf, prevOf, getValue, List.getElem?_eq_getElem hb,
      List.getElem?_eq_getElem hb', Option.some_bind, Option.map_some'] at e1 e2 e3
    rw [List.getElem?_eq_getElem hb, List.getElem?_eq_getElem hb']
    congr 1
    cases hx : h'[b] with
    | mk p1 n1 v1 =>
      cases hy : h[b] with
      | mk p2 n2 v2 =>
        rw [hx, hy] at e1 e2 e3
        simp at e1 e2 e3
        simp [e1, e2, e3]
  · rw [List.getElem?_eq_none (by omega), List.getElem?_eq_none (by omega)]

theorem Rotate_run (h : Heap T) (l : LinkList T) (t hd s : Nat) (ht : l.tail = some t)
    (hh : l.head = some hd) (htlt : t < h.length) (hhlt : hd < h.length) (hslt : s < h.length)
    (hs : (if t = hd then some t else prevOf h t) = some s) :
    Rotate h l = some (putNext (putPrev (putPrev (putNext h t (some hd)) hd (some t)) t none)
      s none, { l with head := some t, tail := some s }) := by
  by_cases hthd : t = hd
  · subst hthd
    simp only [if_true, Option.some.injEq] at hs
    subst hs
    simp [Rotate, deref, ht, hh, setNext, setPrev, getPrev_ite, htlt, prevOf_putPrev]
  · simp only [if_neg hthd] at hs
    simp [Rotate, deref, ht, hh, setNext, setPrev, getPrev_ite, htlt, hhlt, hslt, prevOf_putPrev,
      hthd, hs]

theorem RotateBack_run (h : Heap T) (l : LinkList T) (t hd s : Nat) (ht : l.tail = some t)
    (hh : l.head = some hd) (htlt : t < h.length) (hhlt : hd < h.length) (hslt : s < h.length)
    (hs : (if hd = t then some hd else nextOf h hd) = some s) :
    RotateBack h l = some (putNext (putPrev (putNext (putPrev h hd (some t)) t (some hd)) s none)
      hd none, { l with tail := some hd, head := some s }) := by
  by_cases hthd : hd = t
  · subst hthd
    simp only [if_true, Option.some.injEq] at hs
    subst hs
    simp [RotateBack, deref, ht, hh, setNext, setPrev, getNext_ite, hhlt, nextOf_putNext]
  · simp only [if_neg hthd] at hs
    simp [RotateBack, deref, ht, hh, setNext, setPrev, getNext_ite, htlt, hhlt, hslt,
      nextOf_putNext, hthd, hs]

theorem Rotate_heap_next (h : Heap T) (t hd s : Nat) (htlt : t < h.length)
    (hslt : s < h.length) (b : Nat) :
    nextOf (putNext (putPrev (putPrev (putNext h t (some hd)) hd (some t)) t none) s none) b
      = if b = s then none else if b = t then some hd else nextOf h b := by
  rw [nextOf_putNext _ _ _ _ (by simpa using hslt)]
  simp [nextOf_putNext, htlt]

theorem Rotate_heap_prev (h : Heap T) (t hd s : Nat) (htlt : t < h.length)
    (hhlt : hd < h.length) (b : Nat) :
    prevOf (putNext (putPrev (putPrev (putNext h t (some hd)) hd (some t)) t none) s none) b
      = if b = t then none else if b = hd then some t else prevOf h b := by
  rw [prevOf_putNext, prevOf_putPrev _ _ _ _ (by simpa using htlt),
    prevOf_putPrev _ _ _ _ (by simpa using hhlt), prevOf_putNext]

theorem Rotate_wf (h : Heap T) (l : LinkList T) (ns : List Nat) (t : Nat)
    (hwf : WF h l (ns ++ [t])) :
    ∃ h' l', Rotate h l = some (h', l') ∧ WF h' l' (t :: ns) ∧ l'.len = l.len ∧
      (∀ b, getValue h' b = getValue h b) ∧ l'.head = some t ∧ prevOf h' t = none ∧
      l'.tail = (t :: ns).getLast? ∧ (∀ s, l'.tail = some s → nextOf h' s = none) ∧
      (ns = [] → h' = h ∧ l' = l) ∧ l'.copy = l.copy ∧ l'.equal = l.equal ∧
      h'.length = h.length ∧
      (∀ b, b ∉ ns ++ [t] → nextOf h' b = nextOf h b ∧ prevOf h' b = prevOf h b) := by
  have htl : l.tail = some t := by simpa using hwf.tail_eq
  have htlt : t < h.length := hwf.lt_length (by simp)
  obtain ⟨hnd, hval, hnx, hpv, hlen⟩ := hwf
  cases ns with
  | nil =>
    simp only [List.nil_append, chain_cons, chain_nil, List.reverse_cons, List.reverse_nil]
      at hnx hpv
    have hrun := Rotate_run h l t t t htl hnx.1 htlt htlt htlt (by simp)
    have hN := Rotate_heap_next h t t t htlt htlt
    have hPv := Rotate_heap_prev h t t t htlt htlt
    have hheap : putNext (putPrev (putPrev (putNext h t (some t)) t (some t)) t none) t none
        = h := by
      apply heap_ext
      · simp
      · intro b
        rw [hN b]
        by_cases hb : b = t
        · subst hb; simp [hnx.2]
        · simp [hb]
      · intro b
        rw [hPv b]
        by_cases hb : b = t
        · subst hb; simp [hpv.2]
        · simp [hb]
      · intro b; simp
    refine ⟨_, _, hrun, ?_, rfl, by simp, rfl, ?_, by simp, ?_, ?_, rfl, rfl, by simp, ?_⟩
    · refine ⟨by simp, ?_, ?_, ?_, by simpa using hlen⟩
      · intro b hb; simpa using hval b (by simpa using hb)
      · simp only [chain_cons, chain_nil]; exact ⟨trivial, by rw [hN t]; simp⟩
      · simp only [List.reverse_cons, List.reverse_nil, List.nil_append, chain_cons, chain_nil]
        exact ⟨trivial, by rw [hPv t]; simp⟩
    · rw [hPv t]; simp
    · intro s hs
      simp only [Option.some.injEq] at hs
      subst hs
      rw [hN t]; simp
    · intro _
      refine ⟨hheap, ?_⟩
      cases l
      simp only at htl hnx ⊢
      simp [htl, hnx.1]
    · intro b _
      rw [hheap]; exact ⟨rfl, rfl⟩
  | cons hd rest =>
    rcases eq_nil_or_snoc (hd :: rest) with hnil | ⟨ns', s, e⟩
    · exact absurd hnil (by simp)
    · have hh : l.head = some hd := by simpa using hnx.1
      have hhlt : hd < h.length := hval hd (by simp)
      have hslt : s < h.length := hval s (by rw [e]; simp)
      have hnd' := List.nodup_append.1 hnd
      have htn : t ∉ hd :: rest := fun hm => hnd'.2.2 hm (List.mem_singleton_self t)
      have hthd : t ≠ hd := fun e' => htn (by simp [e'])
      have hts : t ≠ s := fun e' => htn (by rw [e]; simp [e'])
      have hnx2 : chain (nextOf h) l.head (ns' ++ [s] ++ [t]) none := by rw [← e]; exact hnx
      have hpv2 : chain (prevOf h) l.tail (ns' ++ [s] ++ [t]).reverse none := by
        rw [← e]; exact hpv
      simp only [List.append_assoc, List.singleton_append, chain_append_cons, chain_cons,
        chain_nil] at hnx2
      simp only [List.reverse_append, List.reverse_cons, List.reverse_nil, List.nil_append,
        List.singleton_append, List.cons_append, chain_cons] at hpv2
      simp only [List.reverse_append, List.reverse_cons, List.reverse_nil, List.nil_append,
        List.singleton_append, List.cons_append, chain_cons, chain_append_cons, chain_nil] at hpv
      have hpt : prevOf h t = some s := hpv2.2.1
      have hrun := Rotate_run h l t hd s htl hh htlt hhlt hslt (by simp [hthd, hpt])
      have hN := Rotate_heap_next h t hd s htlt hslt
      have hPv := Rotate_heap_prev h t hd s htlt hhlt
      have hsn : s ∉ ns' := by
        intro hm
        have : (ns' ++ [s]).Nodup := by rw [← e]; exact hnd'.1
        exact (List.nodup_append.1 this).2.2 hm (List.mem_singleton_self s)
      have hhr : hd ∉ rest := (List.nodup_cons.1 hnd'.1).1
      refine ⟨_, _, hrun, ?_, rfl, by simp, rfl, ?_, ?_, ?_, by simp, rfl, rfl, by simp, ?_⟩
      · refine ⟨List.nodup_cons.2 ⟨htn, hnd'.1⟩, ?_, ?_, ?_, ?_⟩
        · intro b hb
          simp only [length_putNext, length_putPrev]
          rcases List.mem_cons.1 hb with rfl | hb
          · exact htlt
          · exact hval b (List.mem_append_left _ hb)
        · rw [e, chain_cons]
          refine ⟨rfl, ?_⟩
          rw [hN t, if_neg hts, if_pos rfl, chain_append_cons, chain_nil]
          refine ⟨?_, by rw [hN s]; simp⟩
          have hc := hnx2.1
          rw [hh] at hc
          refine chain_of_congr hc ?_
          intro b hb
          have h1 : b ≠ s := fun e' => hsn (e' ▸ hb)
          have h2 : b ≠ t := fun e' => htn (by rw [e]; simp [← e', hb])
          rw [hN b]; simp [h1, h2]
        · show chain _ (some s) _ none
          simp only [List.reverse_cons, List.append_assoc, List.singleton_append,
            chain_append_cons, chain_cons, chain_nil]
          refine ⟨?_, by rw [hPv hd]; simp [hthd.symm], by rw [hPv t]; simp⟩
          have hc := hpv.2.1
          rw [hpt] at hc
          refine chain_of_congr hc ?_
          intro b hb
          have hb' : b ∈ rest := List.mem_reverse.1 hb
          have h1 : b ≠ hd := fun e' => hhr (e' ▸ hb')
          have h2 : b ≠ t := fun e' => htn (by simp [← e', hb'])
          rw [hPv b]; simp [h1, h2]
        · simpa using hlen
      · rw [hPv t]; simp
      · show some s = _
        rw [List.getLast?_cons_cons, e]; simp
      · intro s' hs'
        have : s' = s := by
          have : some s = some s' := hs'
          simpa using this.symm
        subst this
        rw [hN s']; simp
      · intro b hb
        have h1 : b ≠ t := fun e' => hb (by simp [e'])
        have h2 : b ≠ hd := fun e' => hb (by simp [e'])
        have h3 : b ≠ s := fun e' => hb (by rw [e]; simp [e'])
        rw [hN b, hPv b]; simp [h1, h2, h3]

theorem RotateBack_heap_next (h : Heap T) (t hd s : Nat) (htlt : t < h.length)
    (hhlt : hd < h.length) (b : Nat) :
    nextOf (putNext (putPrev (putNext (putPrev h hd (some t)) t (some hd)) s none) hd none) b
      = if b = hd then none else if b = t then some hd else nextOf h b := by
  rw [nextOf_putNext _ _ _ _ (by simpa using hhlt), nextOf_putPrev,
    nextOf_putNext _ _ _ _ (by simpa using htlt), nextOf_putPrev]

theorem RotateBack_heap_prev (h : Heap T) (t hd s : Nat) (hslt : s < h.length)
    (hhlt : hd < h.length) (b : Nat) :
    prevOf (putNext (putPrev (putNext (putPrev h hd (some t)) t (some hd)) s none) hd none) b
      = if b = s then none else if b = hd then some t else prevOf h b := by
  rw [prevOf_putNext, prevOf_putPrev _ _ _ _ (by simpa using hslt), prevOf_putNext,
    prevOf_putPrev _ _ _ _ hhlt]

theorem RotateBack_wf (h : Heap T) (l : LinkList T) (ns : List Nat) (hd : Nat)
    (hwf : WF h l (hd :: ns)) :
    ∃ h' l', RotateBack h l = some (h', l') ∧ WF h' l' (ns ++ [hd]) ∧ l'.len = l.len ∧
      (∀ b, getValue h' b = getValue h b) ∧ l'.tail = some hd ∧ nextOf h' hd = none ∧
      l'.head = (ns ++ [hd]).head? ∧ (∀ s, l'.head = some s → prevOf h' s = none) ∧
      (ns = [] → h' = h ∧ l' = l) ∧ l'.copy = l.copy ∧ l'.equal = l.equal ∧
      h'.length = h.length ∧
      (∀ b, b ∉ hd :: ns → nextOf h' b = nextOf h b ∧ prevOf h' b = prevOf h b) := by
  have hh : l.head = some hd := by simpa using hwf.head_eq
  have hhlt : hd < h.length := hwf.lt_length (by simp)
  obtain ⟨hnd, hval, hnx, hpv, hlen⟩ := hwf
  cases ns with
  | nil =>
    simp only [chain_cons, chain_nil, List.reverse_cons, List.reverse_nil, List.nil_append]
      at hnx hpv
    have hrun := RotateBack_run h l hd hd hd hpv.1 hh hhlt hhlt hhlt (by simp)
    have hN := RotateBack_heap_next h hd hd hd hhlt hhlt
    have hPv := RotateBack_heap_prev h hd hd hd hhlt hhlt
    have hheap : putNext (putPrev (putNext (putPrev h hd (some hd)) hd (some hd)) hd none) hd none
        = h := by
      apply heap_ext
      · simp
      · intro b
        rw [hN b]
        by_cases hb : b = hd
        · subst hb; simp [hnx.2]
        · simp [hb]
      · intro b
        rw [hPv b]
        by_cases hb : b = hd
        · subst hb; simp [hpv.2]
        · simp [hb]
      · intro b; simp
    refine ⟨_, _, hrun, ?_, rfl, by simp, rfl, ?_, by simp, ?_, ?_, rfl, rfl, by simp, ?_⟩
    · refine ⟨by simp, ?_, ?_, ?_, by simpa using hlen⟩
      · intro b hb; simpa using hval b (by simpa using hb)
      · simp only [List.nil_append, chain_cons, chain_nil]
        exact ⟨trivial, by rw [hN hd]; simp⟩
      · simp only [List.nil_append, List.reverse_cons, List.reverse_nil, chain_cons, chain_nil]
        exact ⟨trivial, by rw [hPv hd]; simp⟩
    · rw [hN hd]; simp
    · intro s hs
      simp only [Option.some.injEq] at hs
      subst hs
      rw [hPv hd]; simp
    · intro _
      refine ⟨hheap, ?_⟩
      cases l
      simp only at hh hpv ⊢
      simp [hh, hpv.1]
    · intro b _
      rw [hheap]; exact ⟨rfl, rfl⟩
  | cons s rest =>
    rcases eq_nil_or_snoc (s :: rest) with hnil | ⟨ns', t, e⟩
    · exact absurd hnil (by simp)
    · have hnd' := List.nodup_cons.1 hnd
      have hslt : s < h.length := hval s (by simp)
      have htlt : t < h.length := hval t (by rw [e]; simp)
      have hhs : hd ≠ s := fun e' => hnd'.1 (by simp [e'])
      have hht : hd ≠ t := fun e' => hnd'.1 (by rw [e]; simp [e'])
      have hnx2 : chain (nextOf h) l.head (hd :: (ns' ++ [t])) none := by rw [← e]; exact hnx
      have hpv2 : chain (prevOf h) l.tail (hd :: (ns' ++ [t])).reverse none := by
        rw [← e]; exact hpv
      simp only [chain_append_cons, chain_cons, chain_nil] at hnx2 hnx
      simp only [List.reverse_append, List.reverse_cons, List.reverse_nil, List.nil_append,
        List.singleton_append, List.cons_append, chain_cons, chain_append_cons, chain_nil]
        at hpv2
      simp only [List.reverse_cons, List.append_assoc, List.singleton_append,
        chain_append_cons, chain_cons, chain_nil] at hpv
      have htl : l.tail = some t := hpv2.1
      have hnh : nextOf h hd = some s := hnx.2.1
      have hrun := RotateBack_run h l t hd s htl hh htlt hhlt hslt (by simp [hht, hnh])
      have hN := RotateBack_heap_next h t hd s htlt hhlt
      have hPv := RotateBack_heap_prev h t hd s hslt hhlt
      have htn : t ∉ ns' := by
        intro hm
        have : (ns' ++ [t]).Nodup := by rw [← e]; exact hnd'.2
        exact (List.nodup_append.1 this).2.2 hm (List.mem_singleton_self t)
      have hsr : s ∉ rest := (List.nodup_cons.1 hnd'.2).1
      refine ⟨_, _, hrun, ?_, rfl, by simp, rfl, ?_, by simp, ?_, by simp, rfl, rfl, by simp, ?_⟩
      · refine ⟨?_, ?_, ?_, ?_, ?_⟩
        · rw [List.nodup_append]
          refine ⟨hnd'.2, List.nodup_singleton _, ?_⟩
          intro b hb hb'
          rw [List.mem_singleton] at hb'
          exact hnd'.1 (hb' ▸ hb)
        · intro b hb
          simp only [length_putNext, length_putPrev]
          rcases List.mem_append.1 hb with hb | hb
          · exact hval b (List.mem_cons_of_mem _ hb)
          · rw [List.mem_singleton] at hb; rw [hb]; exact hhlt
        · show chain _ (some s) _ none
          rw [e]
          simp only [List.append_assoc, List.singleton_append, chain_append_cons, chain_cons,
            chain_nil]
          refine ⟨?_, by rw [hN t]; simp [hht.symm], by rw [hN hd]; simp⟩
          have hc := hnx2.2.1
          rw [hnh] at hc
          refine chain_of_congr hc ?_
          intro b hb
          have h1 : b ≠ t := fun e' => htn (e' ▸ hb)
          have h2 : b ≠ hd := fun e' => hnd'.1 (by rw [e]; simp [← e', hb])
          rw [hN b]; simp [h1, h2]
        · show chain _ (some hd) _ none
          simp only [List.reverse_append, List.reverse_cons, List.reverse_nil, List.nil_append,
            List.singleton_append, List.cons_append, chain_cons, chain_append_cons, chain_nil]
          refine ⟨trivial, ?_, by rw [hPv s]; simp⟩
          rw [hPv hd, if_neg hhs, if_pos rfl]
          have hc := hpv.1
          rw [htl] at hc
          refine chain_of_congr hc ?_
          intro b hb
          have hb' : b ∈ rest := List.mem_reverse.1 hb
          have h1 : b ≠ s := fun e' => hsr (e' ▸ hb')
          have h2 : b ≠ hd := fun e' => hnd'.1 (by simp [← e', hb'])
          rw [hPv b]; simp [h1, h2]
        · simpa using hlen
      · rw [hN hd]; simp
      · intro s' hs'
        have : s' = s := by
          have : some s = some s' := hs'
          simpa using this.symm
        subst this
        rw [hPv s']; simp
      · intro b hb
        have h1 : b ≠ hd := fun e' => hb (by simp [e'])
        have h2 : b ≠ s := fun e' => hb (by simp [e'])
        have h3 : b ≠ t := fun e' => hb (by rw [e]; simp [e'])
        rw [hN b, hPv b]; simp [h1, h2, h3]

/-! ## The node sequence of a well-formed list is the walk from its head -/

theorem walk_of_chain (h : Heap T) (ns : List Nat) :
    ∀ (fuel : Nat) (s : Option Nat), ns.length < fuel → chain (nextOf h) s ns none →
      (∀ a ∈ ns, a < h.length) → walk h fuel s = some ns := by
  induction ns with
  | nil =>
    intro fuel s hfuel hch _
    obtain ⟨k, rfl⟩ : ∃ k, fuel = k + 1 := ⟨fuel - 1, by simp at hfuel; omega⟩
    simp only [chain_nil] at hch
    subst hch
    simp [walk]
  | cons a rest ih =>
    intro fuel s hfuel hch hval
    obtain ⟨k, rfl⟩ : ∃ k, fuel = k + 1 := ⟨fuel - 1, by simp at hfuel; omega⟩
    rw [chain_cons] at hch
    obtain ⟨hs, hch⟩ := hch
    subst hs
    have ha := hval a (List.mem_cons_self _ _)
    have hk : rest.length < k := by simp at hfuel; omega
    have := ih k (nextOf h a) hk hch (fun b hb => hval b (List.mem_cons_of_mem _ hb))
    simp [walk, getNext_eq h a ha, this]

theorem WF.walk_eq {h : Heap T} {l : LinkList T} {ns : List Nat} (hwf : WF h l ns)
    (fuel : Nat) (hfuel : ns.length < fuel) : walk h fuel l.head = some ns :=
  walk_of_chain h ns fuel l.head hfuel hwf.2.2.1 hwf.2.1

theorem WF.unique {h : Heap T} {l : LinkList T} {ns ms : List Nat} (hn : WF h l ns)
    (hm : WF h l ms) : ns = ms := by
  have e1 := hn.walk_eq (ns.length + ms.length + 1) (by omega)
  have e2 := hm.walk_eq (ns.length + ms.length + 1) (by omega)
  rw [e1] at e2
  exact Option.some.inj e2

/-! ## Properties of the specification -/

theorem values_append (h : Heap T) (xs ys : List Nat) :
    values h (xs ++ ys) = values h xs ++ values h ys := by
  simp [values]

theorem values_cons (h : Heap T) (a : Nat) (xs : List Nat) :
    values h (a :: xs) = getValue h a :: values h xs := by
  simp [values]

/-- C1. `PushBack(v)` on a well-formed list with node sequence `ns` and values `vs` links a
fresh node at the tail and raises the length by one, but the new tail node holds the zero
value of `T`, not `v`: the value sequence becomes `vs ++ [zero]`. Evaluated on the list
`[7]` with `v = 5`: the resulting values are `[7, 0]`, so the claimed `vs ++ [v]` fails. -/
theorem PushBack_failing_input :
    ∃ h' l', PushBack exHeap1 exList1 5 = some (h', l') ∧ WF h' l' [0, 1] ∧ l'.len = 2 ∧
      l'.tail = some 1 ∧ values h' [0, 1] = [some 7, some 0] ∧
      values h' [0, 1] ≠ [some 7, some 5] :=
  ⟨_, _, rfl, by decide, rfl, rfl, rfl, by decide⟩

/-- C2. `Copy()` of the well-formed list `[10, 20, 30]` with the identity as copy function
succeeds and returns a well-formed list of three fresh nodes with the same length and the
same function fields, but every copied node holds the zero value: the values are
`[0, 0, 0]`, not `map f [10, 20, 30] = [10, 20, 30]`. -/
theorem Copy_failing_input :
    WF exHeap3 exList3 [0, 1, 2] ∧ values exHeap3 [0, 1, 2] = [some 10, some 20, some 30] ∧
    ∃ h' nl, Copy 4 exHeap3 exList3 = some (h', some nl, none) ∧ WF h' nl [3, 4, 5] ∧
      nl.len = 3 ∧ values h' [3, 4, 5] = [some 0, some 0, some 0] ∧
      values h' [3, 4, 5] ≠ [some 10, some 20, some 30] :=
  ⟨by decide, rfl, _, _, rfl, by decide, rfl, rfl, by decide⟩

/-- C3. For every well-formed list with node sequence `ns` and value sequence `vs`,
`PushFront(v)` returns, the length grows by one, the list is well formed with node
sequence `new :: ns` for the freshly allocated node `new`, its value sequence is `v :: vs`,
and on an empty list the new node is both head and tail. -/
theorem PushFront_correct [Inhabited T] (h : Heap T) (l : LinkList T) (ns : List Nat)
    (vs : List T) (v : T) (hwf : WF h l ns) (hvs : values h ns = vs.map some) :
    ∃ h' l', PushFront h l v = some (h', l') ∧ l'.len = l.len + 1 ∧
      WF h' l' (h.length :: ns) ∧ values h' (h.length :: ns) = (v :: vs).map some ∧
      (ns = [] → l'.head = some h.length ∧ l'.tail = some h.length) := by
  obtain ⟨h', l', hrun, hlen, hwf', hnew, hold, hhead, htail, -, -⟩ := PushFront_wf h l ns v hwf
  refine ⟨h', l', hrun, hlen, hwf', ?_, fun e => ⟨hhead, htail e⟩⟩
  rw [values_cons, hnew, values_congr h h' ns hold, hvs]
  rfl

theorem PushFront_correct_witness :
    WF exHeap3 exList3 [0, 1, 2] ∧
    ∃ h' l', PushFront exHeap3 exList3 5 = some (h', l') ∧ l'.len = exList3.len + 1 ∧
      WF h' l' (exHeap3.length :: [0, 1, 2]) ∧
      values h' (exHeap3.length :: [0, 1, 2]) = (5 :: [10, 20, 30]).map some ∧
      (([0, 1, 2] : List Nat) = [] → l'.head = some exHeap3.length ∧
        l'.tail = some exHeap3.length) :=
  ⟨by decide, PushFront_correct exHeap3 exList3 [0, 1, 2] [10, 20, 30] 5 (by decide) rfl⟩

/-- C4. For every well-formed list with node sequence `ns` and `equalFn = eq`, `Search(k)`
returns without error (given fuel for the scan); a returned node is the first node of `ns`
whose value `v` has `eq v k = true`, every earlier node failing `eq`; and the result is
absent exactly when no node of `ns` satisfies `eq`. `Search` has no access to anything but
reading the heap and the header, which its result does not contain. -/
theorem Search_correct (fuel : Nat) (h : Heap T) (l : LinkList T) (ns : List Nat)
    (eq : T → T → Bool) (key : T) (hwf : WF h l ns) (heq : l.equal = some eq)
    (hfuel : ns.length < fuel) :
    ∃ r, Search fuel h l key = some (r, none) ∧
      (∀ a, r = some a → ∃ xs ys v, ns = xs ++ a :: ys ∧ getValue h a = some v ∧
        eq v key = true ∧ ∀ x ∈ xs, ∃ w, getValue h x = some w ∧ eq w key = false) ∧
      (r = none ↔ ∀ x ∈ ns, ∃ w, getValue h x = some w ∧ eq w key = false) := by
  have hrun : Search fuel h l key = searchLoop eq key fuel h l.head := by simp [Search, heq]
  rcases searchLoop_spec eq key h ns fuel l.head hfuel hwf.2.2.1 hwf.2.1 with
    ⟨xs, a, ys, v, hsplit, hv, hev, hxs, hres⟩ | ⟨hall, hres⟩
  · refine ⟨some a, by rw [hrun, hres], ?_, ?_⟩
    · intro b hb
      have : a = b := by simpa using hb
      subst this
      exact ⟨xs, ys, v, hsplit, hv, hev, hxs⟩
    · constructor
      · intro hcon; simp at hcon
      · intro hall
        obtain ⟨w, hw, hew⟩ := hall a (by rw [hsplit]; simp)
        rw [hv] at hw
        have : v = w := by simpa using hw
        subst this
        rw [hev] at hew
        simp at hew
  · refine ⟨none, by rw [hrun, hres], ?_, ?_⟩
    · intro a ha; simp at ha
    · exact ⟨fun _ => hall, fun _ => rfl⟩

theorem Search_correct_witness :
    WF exHeap3 exList3 [0, 1, 2] ∧
    ∃ r, Search 4 exHeap3 exList3 20 = some (r, none) ∧
      (∀ a, r = some a → ∃ xs ys v, [0, 1, 2] = xs ++ a :: ys ∧ getValue exHeap3 a = some v ∧
        (fun (a b : Int) => decide (a = b)) v 20 = true ∧
        ∀ x ∈ xs, ∃ w, getValue exHeap3 x = some w ∧
          (fun (a b : Int) => decide (a = b)) w 20 = false) ∧
      (r = none ↔ ∀ x ∈ [0, 1, 2], ∃ w, getValue exHeap3 x = some w ∧
        (fun (a b : Int) => decide (a = b)) w 20 = false) :=
  ⟨by decide, Search_correct 4 exHeap3 exList3 [0, 1, 2] _ 20 (by decide) rfl (by decide)⟩

/-- C5. For every well-formed list with node sequence `ns` and every integer `i`,
`Index(i)` returns absent when `i < 0` or `i >= len` (so for `-1` and for `len`), and
otherwise returns the `i`-th node of `ns`, never dereferencing `nil`. -/
theorem Index_correct (h : Heap T) (l : LinkList T) (ns : List Nat) (i : Int)
    (hwf : WF h l ns) :
    ((i < 0 ∨ l.len ≤ i) → Index h l i = some none) ∧
      (0 ≤ i → i < l.len → ∃ a, ns[i.toNat]? = some a ∧ Index h l i = some (some a)) ∧
      Index h l (-1) = some none ∧ Index h l l.len = some none := by
  refine ⟨?_, ?_, ?_, ?_⟩
  · intro hi
    have : i < 0 ∨ i ≥ l.len := hi
    simp [Index, this]
  · intro h0 h1
    have hlen := hwf.2.2.2.2
    have hk : i.toNat < ns.length := by
      rw [hlen] at h1; omega
    have hnot : ¬ (i < 0 ∨ i ≥ l.len) := by
      intro hc; rcases hc with hc | hc <;> omega
    refine ⟨ns[i.toNat], List.getElem?_eq_getElem hk, ?_⟩
    rw [Index, if_neg hnot, indexLoop_spec h ns i.toNat l.head hwf.2.2.1 hwf.2.1 hk,
      List.getElem?_eq_getElem hk]
  · simp [Index]
  · simp [Index]

theorem Index_correct_witness :
    WF exHeap3 exList3 [0, 1, 2] ∧
    (((2 : Int) < 0 ∨ exList3.len ≤ 2) → Index exHeap3 exList3 2 = some none) ∧
      ((0 : Int) ≤ 2 → 2 < exList3.len →
        ∃ a, ([0, 1, 2] : List Nat)[(2 : Int).toNat]? = some a ∧
          Index exHeap3 exList3 2 = some (some a)) ∧
      Index exHeap3 exList3 (-1) = some none ∧ Index exHeap3 exList3 exList3.len = some none :=
  ⟨by decide, Index_correct exHeap3 exList3 [0, 1, 2] 2 (by decide)⟩

/-- C6. For every well-formed list with node sequence `xs ++ [n] ++ ys`, `Remove(n)`
returns, the list is well formed with node sequence `xs ++ ys`, the length drops by one,
the head changes exactly when `n` was the head (to the first node of `ys`, or `nil`), the
tail changes exactly when `n` was the tail (to the last node of `xs`, or `nil`), and the
neighbours of `n` reference each other. -/
theorem Remove_correct (h : Heap T) (l : LinkList T) (xs ys : List Nat) (n : Nat)
    (hwf : WF h l (xs ++ [n] ++ ys)) :
    ∃ h' l', Remove h l n = some (h', l') ∧ WF h' l' (xs ++ ys) ∧ l'.len = l.len - 1 ∧
      (l'.head ≠ l.head ↔ l.head = some n) ∧ (l'.tail ≠ l.tail ↔ l.tail = some n) ∧
      (l.head = some n → l'.head = ys.head?) ∧ (l.tail = some n → l'.tail = xs.getLast?) ∧
      (∀ p, xs.getLast? = some p → nextOf h' p = ys.head?) ∧
      (∀ q, ys.head? = some q → prevOf h' q = xs.getLast?) := by
  have hwf2 : WF h l (xs ++ n :: ys) := by simpa using hwf
  obtain ⟨h', l', hrun, hwf', hlen, -, hhead, htail, hp, hq, -, -, -, -⟩ :=
    Remove_wf h l xs ys n hwf2
  have hH := hwf2.head_eq
  have hT := hwf2.tail_eq
  have hnd := List.nodup_append.1 hwf2.1
  rw [List.nodup_cons] at hnd
  have hnx : n ∉ xs := fun hm => hnd.2.2 hm (List.mem_cons_self _ _)
  have hxs : l.head = some n ↔ xs = [] := by
    rw [hH]
    cases xs with
    | nil => simp
    | cons x xs' =>
      have : x ≠ n := fun e => hnx (by simp [e])
      simp [this]
  have hys : l.tail = some n ↔ ys = [] := by
    rw [hT]
    rcases eq_nil_or_snoc ys with rfl | ⟨ys', y, rfl⟩
    · simp
    · have hyn : y ≠ n := fun e => hnd.2.1.1 (by simp [e])
      have e : (xs ++ n :: (ys' ++ [y])).getLast? = some y := by
        rw [show xs ++ n :: (ys' ++ [y]) = (xs ++ n :: ys') ++ [y] by simp]
        rw [List.getLast?_append]; simp
      rw [e]
      simp [hyn]
  refine ⟨h', l', hrun, hwf', hlen, ?_, ?_, ?_, ?_, hp, hq⟩
  · rw [hxs]
    constructor
    · intro hne
      by_contra hx
      exact hne (by rw [hhead, if_neg hx])
    · intro hx hcon
      rw [hhead, if_pos hx, hxs.2 hx] at hcon
      exact hnd.2.1.1 (List.mem_of_mem_head? hcon)
  · rw [hys]
    constructor
    · intro hne
      by_contra hy
      exact hne (by rw [htail, if_neg hy])
    · intro hy hcon
      rw [htail, if_pos hy, hys.2 hy] at hcon
      exact hnx (List.mem_of_mem_getLast? hcon)
  · intro hx; rw [hhead, if_pos (hxs.1 hx)]
  · intro hy; rw [htail, if_pos (hys.1 hy)]

theorem Remove_correct_witness :
    WF exHeap3 exList3 ([0] ++ [1] ++ [2]) ∧
    ∃ h' l', Remove exHeap3 exList3 1 = some (h', l') ∧ WF h' l' ([0] ++ [2]) ∧
      l'.len = exList3.len - 1 ∧
      (l'.head ≠ exList3.head ↔ exList3.head = some 1) ∧
      (l'.tail ≠ exList3.tail ↔ exList3.tail = some 1) ∧
      (exList3.head = some 1 → l'.head = ([2] : List Nat).head?) ∧
      (exList3.tail = some 1 → l'.tail = ([0] : List Nat).getLast?) ∧
      (∀ p, ([0] : List Nat).getLast? = some p → nextOf h' p = ([2] : List Nat).head?) ∧
      (∀ q, ([2] : List Nat).head? = some q → prevOf h' q = ([0] : List Nat).getLast?) :=
  ⟨by decide, Remove_correct exHeap3 exList3 [0] [2] 1 (by decide)⟩

/-- C7. For every well-formed list with node sequence `xs ++ [a] ++ ys` and every allocated
node `m` not in the list, `InsertBefore(a, m)` returns, the list is well formed with node
sequence `xs ++ [m, a] ++ ys`, the length grows by one, and when `a` was the head (`xs`
empty) `m` is the new head. -/
theorem InsertBefore_correct (h : Heap T) (l : LinkList T) (xs ys : List Nat) (a m : Nat)
    (hwf : WF h l (xs ++ [a] ++ ys)) (hm : m < h.length) (hmn : m ∉ xs ++ [a] ++ ys) :
    ∃ h' l', InsertBefore h l a m = some (h', l') ∧ WF h' l' (xs ++ [m, a] ++ ys) ∧
      l'.len = l.len + 1 ∧ (xs = [] → l'.head = some m) := by
  have hwf2 : WF h l (xs ++ a :: ys) := by simpa using hwf
  have hmn2 : m ∉ xs ++ a :: ys := by simpa using hmn
  obtain ⟨h', l', hrun, hwf', hlen, -, hhead, -⟩ := InsertBefore_wf h l xs ys a m hwf2 hm hmn2
  refine ⟨h', l', hrun, by simpa using hwf', hlen, fun hx => by rw [hhead, if_pos hx]⟩

theorem InsertBefore_correct_witness :
    WF exHeap4 exList3 ([0] ++ [1] ++ [2]) ∧ 3 < exHeap4.length ∧ 3 ∉ [0] ++ [1] ++ [2] ∧
    ∃ h' l', InsertBefore exHeap4 exList3 1 3 = some (h', l') ∧
      WF h' l' ([0] ++ [3, 1] ++ [2]) ∧ l'.len = exList3.len + 1 ∧
      (([0] : List Nat) = [] → l'.head = some 3) :=
  ⟨by decide, by decide, by decide,
    InsertBefore_correct exHeap4 exList3 [0] [2] 1 3 (by decide) (by decide) (by decide)⟩

/-- C8. For every pair of well-formed, node-disjoint lists `l` (node sequence `ns`) and
`other` (node sequence `ms`), `l.Concat(other)` returns, `l` is well formed with node
sequence `ns ++ ms` and its length is `len(l) + len(other)`; when `other` is empty, and
when `other` is `nil`, the heap and `l` are returned unchanged. -/
theorem Concat_correct (h : Heap T) (l other : LinkList T) (ns ms : List Nat)
    (hwf : WF h l ns) (hwo : WF h other ms) (hdis : ∀ a ∈ ns, a ∉ ms) :
    (∃ h' l', Concat h l (some other) = some (h', l') ∧ WF h' l' (ns ++ ms) ∧
      l'.len = l.len + other.len) ∧
      (ms = [] → Concat h l (some other) = some (h, l)) ∧ Concat h l none = some (h, l) := by
  have hempty : ms = [] → Concat h l (some other) = some (h, l) := by
    intro hms
    subst hms
    exact Concat_empty h l other ((WF_nil_iff h other).1 hwo).1
  refine ⟨?_, hempty, Concat_nil h l⟩
  by_cases hms : ms = []
  · refine ⟨h, l, hempty hms, ?_, ?_⟩
    · subst hms; simpa using hwf
    · subst hms
      rw [((WF_nil_iff h other).1 hwo).2.2]; simp
  · obtain ⟨h', l', hrun, hwf', hlen, -⟩ := Concat_wf h l other ns ms hwf hwo hdis hms
    exact ⟨h', l', hrun, hwf', hlen⟩

theorem Concat_correct_witness :
    WF exHeapTwo exListA [0, 1] ∧ WF exHeapTwo exListB [2, 3] ∧
    (∃ h' l', Concat exHeapTwo exListA (some exListB) = some (h', l') ∧
      WF h' l' ([0, 1] ++ [2, 3]) ∧ l'.len = exListA.len + exListB.len) ∧
      (([2, 3] : List Nat) = [] →
        Concat exHeapTwo exListA (some exListB) = some (exHeapTwo, exListA)) ∧
      Concat exHeapTwo exListA none = some (exHeapTwo, exListA) :=
  ⟨by decide, by decide,
    Concat_correct exHeapTwo exListA exListB [0, 1] [2, 3] (by decide) (by decide) (by decide)⟩

/-- C9. For every well-formed list with node sequence `ns`: if `ns` is empty, `Rotate()`
returns the heap and the list unchanged; if `ns = ns' ++ [t]`, `Rotate()` returns without
dereferencing `nil`, the list is well formed with node sequence `t :: ns'` and the same
length, the new head `t` has no `prev`, the new tail has no `next`, and a one-node list
(`ns'` empty) is returned with heap and header unchanged. -/
theorem Rotate_correct (h : Heap T) (l : LinkList T) (ns : List Nat) (hwf : WF h l ns) :
    (ns = [] → Rotate h l = some (h, l)) ∧
      (∀ ns' t, ns = ns' ++ [t] → ∃ h' l', Rotate h l = some (h', l') ∧
        WF h' l' (t :: ns') ∧ l'.len = l.len ∧ l'.head = some t ∧ prevOf h' t = none ∧
        (∃ s, l'.tail = some s ∧ nextOf h' s = none) ∧ (ns' = [] → h' = h ∧ l' = l)) := by
  constructor
  · intro hns
    subst hns
    simp [Rotate, ((WF_nil_iff h l).1 hwf).2.1]
  · intro ns' t hns
    subst hns
    obtain ⟨h', l', hrun, hwf', hlen, -, hhead, hprev, htail, hnext, hone, -⟩ :=
      Rotate_wf h l ns' t hwf
    refine ⟨h', l', hrun, hwf', hlen, hhead, hprev, ?_, hone⟩
    have hne : (t :: ns') ≠ [] := by simp
    refine ⟨(t :: ns').getLast hne, ?_, ?_⟩
    · rw [htail, List.getLast?_eq_getLast _ hne]
    · exact hnext _ (by rw [htail, List.getLast?_eq_getLast _ hne])

theorem Rotate_correct_witness :
    WF exHeap3 exList3 [0, 1, 2] ∧
    ((([0, 1, 2] : List Nat) = [] → Rotate exHeap3 exList3 = some (exHeap3, exList3)) ∧
      (∀ ns' t, [0, 1, 2] = ns' ++ [t] → ∃ h' l', Rotate exHeap3 exList3 = some (h', l') ∧
        WF h' l' (t :: ns') ∧ l'.len = exList3.len ∧ l'.head = some t ∧ prevOf h' t = none ∧
        (∃ s, l'.tail = some s ∧ nextOf h' s = none) ∧
        (ns' = [] → h' = exHeap3 ∧ l' = exList3))) :=
  ⟨by decide, Rotate_correct exHeap3 exList3 [0, 1, 2] (by decide)⟩

/-- C10. For every well-formed list with node sequence `ns`: if `ns` is empty,
`RotateBack()` returns the heap and the list unchanged; if `ns = hd :: ns'`, `RotateBack()`
returns without dereferencing `nil`, the list is well formed with node sequence
`ns' ++ [hd]` and the same length, the new tail `hd` has no `next`, the new head has no
`prev`, and a one-node list (`ns'` empty) is returned with heap and header unchanged. -/
theorem RotateBack_correct (h : Heap T) (l : LinkList T) (ns : List Nat) (hwf : WF h l ns) :
    (ns = [] → RotateBack h l = some (h, l)) ∧
      (∀ hd ns', ns = hd :: ns' → ∃ h' l', RotateBack h l = some (h', l') ∧
        WF h' l' (ns' ++ [hd]) ∧ l'.len = l.len ∧ l'.tail = some hd ∧ nextOf h' hd = none ∧
        (∃ s, l'.head = some s ∧ prevOf h' s = none) ∧ (ns' = [] → h' = h ∧ l' = l)) := by
  constructor
  · intro hns
    subst hns
    simp [RotateBack, ((WF_nil_iff h l).1 hwf).1]
  · intro hd ns' hns
    subst hns
    obtain ⟨h', l', hrun, hwf', hlen, -, htail, hnext, hhead, hprev, hone, -⟩ :=
      RotateBack_wf h l ns' hd hwf
    refine ⟨h', l', hrun, hwf', hlen, htail, hnext, ?_, hone⟩
    have hne : (ns' ++ [hd]) ≠ [] := by simp
    refine ⟨(ns' ++ [hd]).head hne, ?_, ?_⟩
    · rw [hhead, List.head?_eq_head hne]
    · exact hprev _ (by rw [hhead, List.head?_eq_head hne])

theorem RotateBack_correct_witness :
    WF exHeap3 exList3 [0, 1, 2] ∧
    ((([0, 1, 2] : List Nat) = [] → RotateBack exHeap3 exList3 = some (exHeap3, exList3)) ∧
      (∀ hd ns', [0, 1, 2] = hd :: ns' → ∃ h' l',
        RotateBack exHeap3 exList3 = some (h', l') ∧
        WF h' l' (ns' ++ [hd]) ∧ l'.len = exList3.len ∧ l'.tail = some hd ∧
        nextOf h' hd = none ∧
        (∃ s, l'.head = some s ∧ prevOf h' s = none) ∧
        (ns' = [] → h' = exHeap3 ∧ l' = exList3))) :=
  ⟨by decide, RotateBack_correct exHeap3 exList3 [0, 1, 2] (by decide)⟩

/-! ## Determinism of well-formedness -/

theorem chain_start (g : Nat → Option Nat) (s e : Option Nat) (ns : List Nat)
    (hc : chain g s ns e) : s = (ns.head?).or e := by
  cases ns with
  | nil => simpa using hc
  | cons a rest => simpa using hc.1

theorem chain_determines (g g' : Nat → Option Nat) (ns : List Nat) :
    ∀ (s s' e : Option Nat), chain g s ns e → chain g' s' ns e → ∀ b ∈ ns, g' b = g b := by
  induction ns with
  | nil => intro s s' e _ _ b hb; simp at hb
  | cons a rest ih =>
    intro s s' e hc hc' b hb
    rw [chain_cons] at hc hc'
    rcases List.mem_cons.1 hb with rfl | hb
    · rw [chain_start g _ e rest hc.2, chain_start g' _ e rest hc'.2]
    · exact ih _ _ e hc.2 hc'.2 b hb

theorem WF_frame (h h' : Heap T) (l : LinkList T) (ns : List Nat) (hwf : WF h l ns)
    (hlen : h.length ≤ h'.length)
    (H : ∀ b ∈ ns, nextOf h' b = nextOf h b ∧ prevOf h' b = prevOf h b) : WF h' l ns := by
  obtain ⟨hnd, hval, hnx, hpv, hl⟩ := hwf
  refine ⟨hnd, fun a ha => Nat.lt_of_lt_of_le (hval a ha) hlen, ?_, ?_, hl⟩
  · exact chain_of_congr hnx (fun b hb => (H b hb).1)
  · exact chain_of_congr hpv (fun b hb => (H b (List.mem_reverse.1 hb)).2)

theorem WF_state_eq (h h' : Heap T) (l l' : LinkList T) (ns : List Nat) (hwf : WF h l ns)
    (hwf' : WF h' l' ns) (hlen : h'.length = h.length)
    (hout : ∀ b, b ∉ ns → nextOf h' b = nextOf h b ∧ prevOf h' b = prevOf h b)
    (hv : ∀ b, getValue h' b = getValue h b) (hc : l'.copy = l.copy)
    (he : l'.equal = l.equal) : h' = h ∧ l' = l := by
  have hn := chain_determines (nextOf h) (nextOf h') ns _ _ none hwf.2.2.1 hwf'.2.2.1
  have hp := chain_determines (prevOf h) (prevOf h') ns.reverse _ _ none hwf.2.2.2.1
    hwf'.2.2.2.1
  constructor
  · apply heap_ext h h' hlen
    · intro b
      by_cases hb : b ∈ ns
      · exact hn b hb
      · exact (hout b hb).1
    · intro b
      by_cases hb : b ∈ ns
      · exact hp b (List.mem_reverse.2 hb)
      · exact (hout b hb).2
    · exact hv
  · have h1 : l'.head = l.head := by rw [hwf.head_eq, hwf'.head_eq]
    have h2 : l'.tail = l.tail := by rw [hwf.tail_eq, hwf'.tail_eq]
    have h3 : l'.len = l.len := by rw [hwf.2.2.2.2, hwf'.2.2.2.2]
    cases l; cases l'
    simp only at h1 h2 h3 hc he
    simp [h1, h2, h3, hc, he]

theorem Rotate_then_RotateBack (h : Heap T) (l : LinkList T) (ns : List Nat)
    (hwf : WF h l ns) (hne : ns ≠ []) :
    ∃ h1 l1, Rotate h l = some (h1, l1) ∧ RotateBack h1 l1 = some (h, l) := by
  rcases eq_nil_or_snoc ns with rfl | ⟨ns', t, rfl⟩
  · exact absurd rfl hne
  · obtain ⟨h1, l1, hrun1, hwf1, -, hv1, -, -, -, -, -, hc1, he1, hlen1, hfr1⟩ :=
      Rotate_wf h l ns' t hwf
    obtain ⟨h2, l2, hrun2, hwf2, -, hv2, -, -, -, -, -, hc2, he2, hlen2, hfr2⟩ :=
      RotateBack_wf h1 l1 ns' t hwf1
    have heq := WF_state_eq h h2 l l2 (ns' ++ [t]) hwf hwf2 (by rw [hlen2, hlen1])
      (by
        intro b hb
        have hb' : b ∉ t :: ns' := by
          intro hm; apply hb; simp at hm ⊢; tauto
        exact ⟨((hfr2 b hb').1).trans (hfr1 b hb).1, ((hfr2 b hb').2).trans (hfr1 b hb).2⟩)
      (fun b => (hv2 b).trans (hv1 b)) (hc2.trans hc1) (he2.trans he1)
    refine ⟨h1, l1, hrun1, ?_⟩
    rw [hrun2, heq.1, heq.2]

/-! ## Errors of Copy and Search -/

theorem searchLoop_no_error (eq : T → T → Bool) (key : T) (h : Heap T) :
    ∀ (fuel : Nat) (i : Option Nat) (r : Option Nat) (e : Option String),
      searchLoop eq key fuel h i = some (r, e) → e = none := by
  intro fuel
  induction fuel with
  | zero => intro i r e hrun; simp [searchLoop] at hrun
  | succ k ih =>
    intro i r e hrun
    cases i with
    | none =>
      simp [searchLoop] at hrun
      exact hrun.2.symm
    | some a =>
      simp only [searchLoop] at hrun
      cases hv : getValue h a with
      | none => simp [hv] at hrun
      | some v =>
        simp only [hv, Option.some_bind, Option.bind_eq_bind] at hrun
        by_cases hev : eq v key = true
        · simp [hev] at hrun
          exact hrun.2.symm
        · simp only [hev, Bool.false_eq_true, if_false] at hrun
          cases hn : getNext h a with
          | none => simp [hn] at hrun
          | some nx =>
            simp only [hn, Option.some_bind] at hrun
            exact ih nx r e hrun

/-! ## Repeated rotation -/

theorem RotateN_spec (k : Nat) :
    ∀ (h : Heap T) (l : LinkList T) (xs ys : List Nat), WF h l (xs ++ ys) → ys.length = k →
      ∃ h' l', RotateN k h l = some (h', l') ∧ WF h' l' (ys ++ xs) ∧ h'.length = h.length ∧
        (∀ b, getValue h' b = getValue h b) ∧ l'.copy = l.copy ∧ l'.equal = l.equal ∧
        (∀ b, b ∉ xs ++ ys → nextOf h' b = nextOf h b ∧ prevOf h' b = prevOf h b) := by
  induction k with
  | zero =>
    intro h l xs ys hwf hk
    have hys : ys = [] := List.length_eq_zero.1 hk
    subst hys
    exact ⟨h, l, rfl, by simpa using hwf, rfl, fun _ => rfl, rfl, rfl, fun _ _ => ⟨rfl, rfl⟩⟩
  | succ k ih =>
    intro h l xs ys hwf hk
    rcases eq_nil_or_snoc ys with rfl | ⟨ys', t, rfl⟩
    · simp at hk
    · have hk' : ys'.length = k := by simpa using hk
      have hwf0 : WF h l ((xs ++ ys') ++ [t]) := by simpa using hwf
      obtain ⟨h1, l1, hrun1, hwf1, -, hv1, -, -, -, -, -, hc1, he1, hlen1, hfr1⟩ :=
        Rotate_wf h l (xs ++ ys') t hwf0
      have hwf1' : WF h1 l1 ((t :: xs) ++ ys') := by simpa using hwf1
      obtain ⟨h2, l2, hrun2, hwf2, hlen2, hv2, hc2, he2, hfr2⟩ :=
        ih h1 l1 (t :: xs) ys' hwf1' hk'
      refine ⟨h2, l2, by simp [RotateN, hrun1, hrun2], by simpa using hwf2,
        by rw [hlen2, hlen1], fun b => (hv2 b).trans (hv1 b), hc2.trans hc1, he2.trans he1, ?_⟩
      intro b hb
      have hb1 : b ∉ (xs ++ ys') ++ [t] := by
        intro hm; apply hb; simp at hm ⊢; tauto
      have hb2 : b ∉ (t :: xs) ++ ys' := by
        intro hm; apply hb; simp at hm ⊢; tauto
      exact ⟨((hfr2 b hb2).1).trans (hfr1 b hb1).1, ((hfr2 b hb2).2).trans (hfr1 b hb1).2⟩

theorem RotateBackN_spec (k : Nat) :
    ∀ (h : Heap T) (l : LinkList T) (xs ys : List Nat), WF h l (xs ++ ys) → xs.length = k →
      ∃ h' l', RotateBackN k h l = some (h', l') ∧ WF h' l' (ys ++ xs) ∧
        h'.length = h.length ∧
        (∀ b, getValue h' b = getValue h b) ∧ l'.copy = l.copy ∧ l'.equal = l.equal ∧
        (∀ b, b ∉ xs ++ ys → nextOf h' b = nextOf h b ∧ prevOf h' b = prevOf h b) := by
  induction k with
  | zero =>
    intro h l xs ys hwf hk
    have hxs : xs = [] := List.length_eq_zero.1 hk
    subst hxs
    exact ⟨h, l, rfl, by simpa using hwf, rfl, fun _ => rfl, rfl, rfl, fun _ _ => ⟨rfl, rfl⟩⟩
  | succ k ih =>
    intro h l xs ys hwf hk
    cases xs with
    | nil => simp at hk
    | cons hd xs' =>
      have hk' : xs'.length = k := by simpa using hk
      have hwf0 : WF h l (hd :: (xs' ++ ys)) := by simpa using hwf
      obtain ⟨h1, l1, hrun1, hwf1, -, hv1, -, -, -, -, -, hc1, he1, hlen1, hfr1⟩ :=
        RotateBack_wf h l (xs' ++ ys) hd hwf0
      have hwf1' : WF h1 l1 (xs' ++ (ys ++ [hd])) := by simpa using hwf1
      obtain ⟨h2, l2, hrun2, hwf2, hlen2, hv2, hc2, he2, hfr2⟩ :=
        ih h1 l1 xs' (ys ++ [hd]) hwf1' hk'
      refine ⟨h2, l2, by simp [RotateBackN, hrun1, hrun2], by simpa using hwf2,
        by rw [hlen2, hlen1], fun b => (hv2 b).trans (hv1 b), hc2.trans hc1, he2.trans he1, ?_⟩
      intro b hb
      have hb1 : b ∉ hd :: (xs' ++ ys) := by
        intro hm; apply hb; simp at hm ⊢; tauto
      have hb2 : b ∉ xs' ++ (ys ++ [hd]) := by
        intro hm; apply hb; simp at hm ⊢; tauto
      exact ⟨((hfr2 b hb2).1).trans (hfr1 b hb1).1, ((hfr2 b hb2).2).trans (hfr1 b hb1).2⟩

theorem RotateN_length (h : Heap T) (l : LinkList T) (ns : List Nat) (hwf : WF h l ns) :
    RotateN ns.length h l = some (h, l) := by
  obtain ⟨h', l', hrun, hwf', hlen, hv, hc, he, hfr⟩ :=
    RotateN_spec ns.length h l [] ns (by simpa using hwf) rfl
  have hwf2 : WF h' l' ns := by simpa using hwf'
  have heq := WF_state_eq h h' l l' ns hwf hwf2 hlen (fun b hb => hfr b (by simpa using hb))
    hv hc he
  rw [hrun, heq.1, heq.2]

theorem RotateBackN_length (h : Heap T) (l : LinkList T) (ns : List Nat) (hwf : WF h l ns) :
    RotateBackN ns.length h l = some (h, l) := by
  obtain ⟨h', l', hrun, hwf', hlen, hv, hc, he, hfr⟩ :=
    RotateBackN_spec ns.length h l ns [] (by simpa using hwf) rfl
  have hwf2 : WF h' l' ns := by simpa using hwf'
  have heq := WF_state_eq h h' l l' ns hwf hwf2 hlen (fun b hb => hfr b (by simpa using hb))
    hv hc he
  rw [hrun, heq.1, heq.2]

/-! ## Concat: the argument list, and a list concatenated with itself -/

theorem chain_next_mem (g : Nat → Option Nat) (xs : List Nat) (t : Nat) :
    ∀ (s e : Option Nat), chain g s (xs ++ [t]) e →
      ∀ b ∈ xs, ∃ c ∈ xs ++ [t], g b = some c := by
  induction xs with
  | nil => intro s e _ b hb; simp at hb
  | cons a xs' ih =>
    intro s e hc b hb
    rw [List.cons_append, chain_cons] at hc
    rcases List.mem_cons.1 hb with rfl | hb
    · have hs := chain_start g _ e _ hc.2
      cases xs' with
      | nil => exact ⟨t, by simp, by simpa using hs⟩
      | cons c rest => exact ⟨c, by simp, by simpa using hs⟩
    · obtain ⟨c, hc', hgc⟩ := ih _ e hc.2 b hb
      exact ⟨c, List.mem_cons_of_mem _ hc', hgc⟩

theorem walk_none_of_closed (h : Heap T) (S : List Nat)
    (H : ∀ b ∈ S, ∃ c ∈ S, nextOf h b = some c) :
    ∀ (fuel : Nat) (b : Nat), b ∈ S → walk h fuel (some b) = none := by
  intro fuel
  induction fuel with
  | zero => intro b _; rfl
  | succ k ih =>
    intro b hb
    obtain ⟨c, hc, hbc⟩ := H b hb
    simp only [walk]
    rw [getNext_ite]
    by_cases hlt : b < h.length
    · simp [hlt, hbc, ih c hc]
    · simp [hlt]

theorem Concat_self (h : Heap T) (l : LinkList T) (ns : List Nat) (hwf : WF h l ns)
    (hne : ns ≠ []) :
    ∃ h' l' hd t, Concat h l (some l) = some (h', l') ∧ l.head = some hd ∧ l.tail = some t ∧
      l'.head = some hd ∧ l'.tail = some t ∧ nextOf h' t = some hd ∧
      prevOf h' hd = some t ∧ l'.len = 2 * l.len ∧
      (∀ b ∈ ns, ∃ c ∈ ns, nextOf h' b = some c) ∧
      (∀ fuel, walk h' fuel l'.head = none) := by
  rcases eq_nil_or_snoc ns with rfl | ⟨xs, t, rfl⟩
  · exact absurd rfl hne
  · have htl : l.tail = some t := by simpa using hwf.tail_eq
    have htlt : t < h.length := hwf.lt_length (by simp)
    obtain ⟨hd, hhd, hmem⟩ : ∃ hd, l.head = some hd ∧ hd ∈ xs ++ [t] := by
      have := hwf.head_eq
      cases xs with
      | nil => exact ⟨t, by simpa using this, by simp⟩
      | cons a rest => exact ⟨a, by simpa using this, by simp⟩
    have hhlt : hd < h.length := hwf.lt_length hmem
    have hN : ∀ b, nextOf (putPrev (putNext h t (some hd)) hd (some t)) b
        = if b = t then some hd else nextOf h b := by
      intro b; simp [nextOf_putNext, htlt]
    have hPv : ∀ b, prevOf (putPrev (putNext h t (some hd)) hd (some t)) b
        = if b = hd then some t else prevOf h b := by
      intro b; rw [prevOf_putPrev _ _ _ _ (by simpa using hhlt)]; simp
    have hclosed : ∀ b ∈ xs ++ [t], ∃ c ∈ xs ++ [t],
        nextOf (putPrev (putNext h t (some hd)) hd (some t)) b = some c := by
      intro b hb
      by_cases hbt : b = t
      · exact ⟨hd, hmem, by rw [hN b, if_pos hbt]⟩
      · have hbx : b ∈ xs := by
          rcases List.mem_append.1 hb with hb | hb
          · exact hb
          · exact absurd (List.mem_singleton.1 hb) hbt
        obtain ⟨c, hc, hbc⟩ := chain_next_mem (nextOf h) xs t _ none hwf.2.2.1 b hbx
        exact ⟨c, hc, by rw [hN b, if_neg hbt, hbc]⟩
    refine ⟨putPrev (putNext h t (some hd)) hd (some t),
      { l with tail := l.tail, len := l.len + l.len }, hd, t,
      by simp [Concat, hhd, htl, setNext, setPrev, htlt, hhlt], hhd, htl, hhd, htl,
      by rw [hN t]; simp, by rw [hPv hd]; simp, by show l.len + l.len = 2 * l.len; ring,
      hclosed, ?_⟩
    intro fuel
    show walk _ fuel l.head = none
    rw [hhd]
    exact walk_none_of_closed _ (xs ++ [t]) hclosed fuel hd hmem

theorem Concat_other (h : Heap T) (l other : LinkList T) (ns ms : List Nat)
    (hwf : WF h l ns) (hwo : WF h other ms) (hdis : ∀ a ∈ ns, a ∉ ms) (hms : ms ≠ []) :
    ∃ h' l', Concat h l (some other) = some (h', l') ∧ WF h' l' (ns ++ ms) ∧
      chain (nextOf h') other.head ms none ∧ l'.tail = other.tail ∧
      (∀ a ∈ ms, a < h'.length) := by
  obtain ⟨h', l', hrun, hwf', -, -, htail, -, -, hlen, -⟩ :=
    Concat_wf h l other ns ms hwf hwo hdis hms
  refine ⟨h', l', hrun, hwf', ?_, htail, fun a ha => by rw [hlen]; exact hwo.lt_length ha⟩
  obtain ⟨m, -, hm2⟩ := (chain_append _ ns ms _ none).1 hwf'.2.2.1
  have h1 := chain_start _ _ _ _ hm2
  have h2 := hwo.head_eq
  cases ms with
  | nil => exact absurd rfl hms
  | cons a rest =>
    simp only [List.head?_cons, Option.or_some] at h1 h2
    rw [h2, ← h1]; exact hm2

/-! ## Remove followed by Index -/

theorem split_at_index (ns : List Nat) (k : Nat) (hk : k < ns.length) :
    ns = ns.take k ++ ns[k] :: ns.drop (k + 1) := by
  conv_rhs => rw [← List.drop_eq_getElem_cons hk, List.take_append_drop]

theorem getElem?_erase_split (ns : List Nat) (k j : Nat) (hk : k < ns.length) :
    (ns.take k ++ ns.drop (k + 1))[j]? = if j < k then ns[j]? else ns[j + 1]? := by
  have hlen : (ns.take k).length = k := by
    rw [List.length_take]; omega
  by_cases hj : j < k
  · rw [if_pos hj, List.getElem?_append_left (by rw [hlen]; exact hj), List.getElem?_take_of_lt hj]
  · rw [if_neg hj, List.getElem?_append_right (by rw [hlen]; omega), hlen, List.getElem?_drop]
    congr 1
    omega

theorem Index_in_range (h : Heap T) (l : LinkList T) (ns : List Nat) (hwf : WF h l ns)
    (j : Nat) (hj : j < ns.length) : Index h l (j : Int) = some ns[j]? := by
  have hlen := hwf.2.2.2.2
  have hnot : ¬ ((j : Int) < 0 ∨ (j : Int) ≥ l.len) := by
    intro hc; rcases hc with hc | hc <;> omega
  rw [Index, if_neg hnot]
  simpa using indexLoop_spec h ns j l.head hwf.2.2.1 hwf.2.1 hj

theorem Index_out_of_range (h : Heap T) (l : LinkList T) (i : Int) (hi : i < 0 ∨ l.len ≤ i) :
    Index h l i = some none := by
  have : i < 0 ∨ i ≥ l.len := hi
  simp [Index, this]

theorem Remove_Index (h : Heap T) (l : LinkList T) (ns : List Nat) (k : Nat)
    (hwf : WF h l ns) (hk : k < ns.length) :
    ∃ h' l', Index h l (k : Int) = some (some ns[k]) ∧ Remove h l ns[k] = some (h', l') ∧
      WF h' l' (ns.take k ++ ns.drop (k + 1)) ∧ l'.len = (ns.length : Int) - 1 := by
  have hsplit := split_at_index ns k hk
  have hwf2 : WF h l (ns.take k ++ ns[k] :: ns.drop (k + 1)) := by rw [← hsplit]; exact hwf
  obtain ⟨h', l', hrun, hwf', hlen, -⟩ := Remove_wf h l _ _ _ hwf2
  refine ⟨h', l', ?_, hrun, hwf', by rw [hlen, hwf.2.2.2.2]⟩
  rw [Index_in_range h l ns hwf k hk, List.getElem?_eq_getElem hk]

/-! ## Append and AppendBack -/

theorem Append_wf (h : Heap T) (l : LinkList T) (ns : List Nat) (n : Nat) (hwf : WF h l ns)
    (hn : n < h.length) (hnn : n ∉ ns) (hpn : prevOf h n = none) (hnx : nextOf h n = none) :
    ∃ h' l', Append h l n = some (h', l') ∧ WF h' l' (n :: ns) ∧ l'.len = l.len + 1 ∧
      (∀ b, getValue h' b = getValue h b) ∧ l'.copy = l.copy ∧ l'.equal = l.equal ∧
      h'.length = h.length ∧
      (∀ b, b ∉ n :: ns → nextOf h' b = nextOf h b ∧ prevOf h' b = prevOf h b) := by
  cases ns with
  | nil =>
    obtain ⟨hh, ht, hl⟩ := (WF_nil_iff h l).1 hwf
    refine ⟨h, { l with head := some n, tail := some n, len := l.len + 1 },
      by simp [Append, hh], ?_, rfl, fun _ => rfl, rfl, rfl, rfl, fun _ _ => ⟨rfl, rfl⟩⟩
    refine ⟨by simp, by simpa using hn, ?_, ?_, by simp [hl]⟩
    · simp [hnx]
    · simp [hpn]
  | cons hd rest =>
    have hhd : l.head = some hd := by simpa using hwf.head_eq
    have hhdlt : hd < h.length := hwf.lt_length (List.mem_cons_self _ _)
    have hnhd : n ≠ hd := fun e => hnn (by simp [e])
    obtain ⟨hnd, hval, hnxc, hpv, hlen⟩ := hwf
    simp only [List.reverse_cons, chain_append_cons, chain_nil] at hpv
    have hnd' := List.nodup_cons.1 hnd
    have hN : ∀ b, nextOf (putPrev (putNext h n (some hd)) hd (some n)) b
        = if b = n then some hd else nextOf h b := by
      intro b; simp [nextOf_putNext, hn]
    have hPv : ∀ b, prevOf (putPrev (putNext h n (some hd)) hd (some n)) b
        = if b = hd then some n else prevOf h b := by
      intro b; rw [prevOf_putPrev _ _ _ _ (by simpa using hhdlt)]; simp
    refine ⟨putPrev (putNext h n (some hd)) hd (some n),
      { l with head := some n, len := l.len + 1 },
      by simp [Append, hhd, setNext, setPrev, hn, hhdlt], ⟨?_, ?_, ?_, ?_, ?_⟩, rfl,
      by simp, rfl, rfl, by simp, ?_⟩
    · exact List.nodup_cons.2 ⟨hnn, hnd⟩
    · intro b hb
      simp only [length_putPrev, length_putNext]
      rcases List.mem_cons.1 hb with rfl | hb
      · exact hn
      · exact hval b hb
    · rw [chain_cons]
      refine ⟨rfl, ?_⟩
      rw [hN n, if_pos rfl]
      rw [hhd] at hnxc
      refine chain_of_congr hnxc ?_
      intro b hb
      have : b ≠ n := fun e => hnn (e ▸ hb)
      rw [hN b, if_neg this]
    · show chain _ l.tail _ none
      simp only [List.reverse_cons, List.append_assoc, List.singleton_append,
        chain_append_cons, chain_nil, chain_cons]
      refine ⟨chain_of_congr hpv.1 ?_, by rw [hPv hd]; simp, by rw [hPv n, if_neg hnhd, hpn]⟩
      intro b hb
      have hb' : b ∈ rest := List.mem_reverse.1 hb
      have : b ≠ hd := fun e => hnd'.1 (e ▸ hb')
      rw [hPv b, if_neg this]
    · show l.len + 1 = _
      rw [hlen]; simp
    · intro b hb
      have h1 : b ≠ n := fun e => hb (by simp [e])
      have h2 : b ≠ hd := fun e => hb (by simp [e])
      rw [hN b, hPv b, if_neg h1, if_neg h2]
      exact ⟨rfl, rfl⟩

theorem AppendBack_wf (h : Heap T) (l : LinkList T) (ns : List Nat) (n : Nat)
    (hwf : WF h l ns) (hn : n < h.length) (hnn : n ∉ ns) (hpn : prevOf h n = none)
    (hnx : nextOf h n = none) :
    ∃ h' l', AppendBack h l n = some (h', l') ∧ WF h' l' (ns ++ [n]) ∧ l'.len = l.len + 1 ∧
      (∀ b, getValue h' b = getValue h b) ∧ l'.copy = l.copy ∧ l'.equal = l.equal ∧
      h'.length = h.length ∧
      (∀ b, b ∉ ns ++ [n] → nextOf h' b = nextOf h b ∧ prevOf h' b = prevOf h b) := by
  rcases eq_nil_or_snoc ns with rfl | ⟨xs, tl, rfl⟩
  · obtain ⟨hh, ht, hl⟩ := (WF_nil_iff h l).1 hwf
    refine ⟨h, { l with head := some n, tail := some n, len := l.len + 1 },
      by simp [AppendBack, ht], ?_, rfl, fun _ => rfl, rfl, rfl, rfl, fun _ _ => ⟨rfl, rfl⟩⟩
    refine ⟨by simp, by simpa using hn, ?_, ?_, by simp [hl]⟩
    · simp [hnx]
    · simp [hpn]
  · have htl : l.tail = some tl := by simpa using hwf.tail_eq
    have htllt : tl < h.length := hwf.lt_length (by simp)
    have hntl : n ≠ tl := fun e => hnn (by simp [e])
    obtain ⟨hnd, hval, hnxc, hpv, hlen⟩ := hwf
    simp only [chain_append_cons, chain_nil] at hnxc
    simp only [List.reverse_append, List.reverse_cons, List.reverse_nil, List.nil_append,
      List.singleton_append, chain_cons] at hpv
    have hnd' := List.nodup_append.1 hnd
    have htlx : tl ∉ xs := fun hm => hnd'.2.2 hm (List.mem_singleton_self tl)
    have hN : ∀ b, nextOf (putNext (putPrev h n (some tl)) tl (some n)) b
        = if b = tl then some n else nextOf h b := by
      intro b; rw [nextOf_putNext _ _ _ _ (by simpa using htllt)]; simp
    have hPv : ∀ b, prevOf (putNext (putPrev h n (some tl)) tl (some n)) b
        = if b = n then some tl else prevOf h b := by
      intro b; simp [prevOf_putPrev, hn]
    refine ⟨putNext (putPrev h n (some tl)) tl (some n),
      { l with tail := some n, len := l.len + 1 },
      by simp [AppendBack, htl, setNext, setPrev, hn, htllt], ⟨?_, ?_, ?_, ?_, ?_⟩, rfl,
      by simp, rfl, rfl, by simp, ?_⟩
    · rw [List.nodup_append]
      refine ⟨hnd, List.nodup_singleton _, ?_⟩
      intro b hb hb'
      rw [List.mem_singleton] at hb'
      exact hnn (hb' ▸ hb)
    · intro b hb
      simp only [length_putPrev, length_putNext]
      rcases List.mem_append.1 hb with hb | hb
      · exact hval b hb
      · rw [List.mem_singleton] at hb; rw [hb]; exact hn
    · show chain _ l.head _ none
      simp only [List.append_assoc, List.singleton_append, chain_append_cons, chain_nil,
        chain_cons]
      refine ⟨chain_of_congr hnxc.1 ?_, by rw [hN tl]; simp, by rw [hN n, if_neg hntl, hnx]⟩
      intro b hb
      have : b ≠ tl := fun e => htlx (e ▸ hb)
      rw [hN b, if_neg this]
    · show chain _ (some n) _ none
      simp only [List.reverse_append, List.reverse_cons, List.reverse_nil, List.nil_append,
        List.singleton_append, List.cons_append, chain_cons]
      refine ⟨trivial, by rw [hPv n]; simp, ?_⟩
      rw [hPv tl, if_neg (fun e => hntl e.symm)]
      refine chain_of_congr hpv.2 ?_
      intro b hb
      have hb' : b ∈ xs := List.mem_reverse.1 hb
      have : b ≠ n := fun e => hnn (by simp [← e, hb'])
      rw [hPv b, if_neg this]
    · show l.len + 1 = _
      rw [hlen]; simp only [List.length_append, List.length_singleton]; push_cast; ring
    · intro b hb
      have h1 : b ≠ n := fun e => hb (by simp [e])
      have h2 : b ≠ tl := fun e => hb (by simp [e])
      rw [hN b, hPv b, if_neg h1, if_neg h2]
      exact ⟨rfl, rfl⟩

/-! ## Well-formedness in the words of the specification -/

theorem chain_of_walk (h : Heap T) :
    ∀ (fuel : Nat) (s : Option Nat) (ns : List Nat), walk h fuel s = some ns →
      chain (nextOf h) s ns none ∧ ∀ a ∈ ns, a < h.length := by
  intro fuel
  induction fuel with
  | zero => intro s ns hw; simp [walk] at hw
  | succ k ih =>
    intro s ns hw
    cases s with
    | none =>
      simp only [walk, Option.some.injEq] at hw
      subst hw
      exact ⟨rfl, by simp⟩
    | some a =>
      simp only [walk, getNext_ite] at hw
      by_cases ha : a < h.length
      · simp only [ha, if_true, Option.bind_eq_bind, Option.some_bind] at hw
        cases hr : walk h k (nextOf h a) with
        | none => simp [hr] at hw
        | some rest =>
          simp only [hr, Option.some_bind, Option.pure_def, Option.some.injEq] at hw
          subst hw
          obtain ⟨hc, hv⟩ := ih _ _ hr
          refine ⟨⟨rfl, hc⟩, ?_⟩
          intro b hb
          rcases List.mem_cons.1 hb with rfl | hb
          · exact ha
          · exact hv b hb
      · simp [ha] at hw

theorem chain_back (g p : Nat → Option Nat) (rest : List Nat) :
    ∀ (a : Nat) (s q : Option Nat), chain g s (a :: rest) none → p a = q →
      (∀ n ∈ a :: rest, ∀ m, g n = some m → p m = some n) →
      chain p (a :: rest).getLast? (a :: rest).reverse q := by
  induction rest with
  | nil =>
    intro a s q _ hq _
    simp [hq]
  | cons b rest' ih =>
    intro a s q hc hq hcons
    rw [chain_cons] at hc
    have hga : g a = some b := by simpa using chain_start g _ none _ hc.2
    have hpb : p b = some a := hcons a (List.mem_cons_self _ _) b hga
    have := ih b (g a) (some a) hc.2 hpb
      (fun n hn m hm => hcons n (List.mem_cons_of_mem _ hn) m hm)
    rw [List.getLast?_cons_cons, List.reverse_cons (a := a), chain_append_cons, chain_nil]
    exact ⟨this, hq⟩

theorem WellFormed_of_WF (h : Heap T) (l : LinkList T) (ns : List Nat) (hwf : WF h l ns) :
    WellFormed h l := by
  refine ⟨ns.length + 1, ns, hwf.walk_eq _ (by omega), hwf.1, hwf.2.2.2.2.symm, hwf.tail_eq,
    ?_, ?_, ?_, ?_, ?_⟩
  · intro n hn m hm
    obtain ⟨xs, ys, rfl⟩ := List.append_of_mem hn
    have h1 := hwf.nextOf_eq
    rw [hm] at h1
    obtain ⟨ys', rfl⟩ := List.head?_eq_some_iff.1 h1.symm
    have hwf2 : WF h l ((xs ++ [n]) ++ m :: ys') := by simpa using hwf
    have h2 := hwf2.prevOf_eq
    simpa using h2
  · intro m hm n hn
    obtain ⟨xs, ys, rfl⟩ := List.append_of_mem hm
    have h1 := hwf.prevOf_eq
    rw [hn] at h1
    obtain ⟨xs', rfl⟩ := List.getLast?_eq_some_iff.1 h1.symm
    have hwf2 : WF h l (xs' ++ n :: (m :: ys)) := by simpa using hwf
    have h2 := hwf2.nextOf_eq
    simpa using h2
  · intro a ha
    have := hwf.head_eq
    rw [ha] at this
    obtain ⟨rest, rfl⟩ := List.head?_eq_some_iff.1 this.symm
    have hwf2 : WF h l ([] ++ a :: rest) := by simpa using hwf
    simpa using hwf2.prevOf_eq
  · intro a ha
    have := hwf.tail_eq
    rw [ha] at this
    obtain ⟨xs, rfl⟩ := List.getLast?_eq_some_iff.1 this.symm
    have hwf2 : WF h l (xs ++ a :: []) := by simpa using hwf
    simpa using hwf2.nextOf_eq
  · rw [hwf.2.2.2.2, hwf.head_eq, hwf.tail_eq]
    cases ns with
    | nil => simp
    | cons a rest => simp; omega

theorem WF_of_WellFormed (h : Heap T) (l : LinkList T) (hw : WellFormed h l) :
    ∃ ns, WF h l ns := by
  obtain ⟨fuel, ns, hwalk, hnd, hlen, htail, hfwd, -, hhead, -, -⟩ := hw
  obtain ⟨hc, hv⟩ := chain_of_walk h fuel l.head ns hwalk
  refine ⟨ns, hnd, hv, hc, ?_, hlen.symm⟩
  rw [htail]
  cases ns with
  | nil => simp
  | cons a rest =>
    have ha : l.head = some a := hc.1
    exact chain_back (nextOf h) (prevOf h) rest a l.head none hc (hhead a ha) hfwd

theorem WellFormed_iff (h : Heap T) (l : LinkList T) :
    WellFormed h l ↔ ∃ ns, WF h l ns :=
  ⟨WF_of_WellFormed h l, fun ⟨ns, hwf⟩ => WellFormed_of_WF h l ns hwf⟩

/-! ## Every mutating call keeps the receiver well formed and other lists untouched -/

theorem PushFront_frame [Inhabited T] (h : Heap T) (l : LinkList T) (ns : List Nat) (v : T)
    (hwf : WF h l ns) :
    ∃ h' l', PushFront h l v = some (h', l') ∧ h'.length = h.length + 1 ∧
      (∀ b, b < h.length → b ∉ ns → nextOf h' b = nextOf h b ∧ prevOf h' b = prevOf h b) := by
  cases ns with
  | nil =>
    obtain ⟨hh, -, -⟩ := (WF_nil_iff h l).1 hwf
    refine ⟨_, _, PushFront_run_nil h l v hh, by simp, ?_⟩
    intro b hb _
    have : b ≠ h.length := Nat.ne_of_lt hb
    simp [nextOf_alloc, prevOf_alloc, this]
  | cons hd rest =>
    have hhd : l.head = some hd := by simpa using hwf.head_eq
    have hhdlt : hd < h.length := hwf.lt_length (List.mem_cons_self _ _)
    refine ⟨_, _, PushFront_run_cons h l v hd hhd hhdlt, by simp, ?_⟩
    intro b hb hbn
    have h1 : b ≠ h.length := Nat.ne_of_lt hb
    have h2 : b ≠ hd := fun e => hbn (by simp [e])
    simp [nextOf_putNext, prevOf_putPrev, nextOf_alloc, prevOf_alloc, h1, h2,
      Nat.lt_succ_of_lt hhdlt]

theorem WF_other (h h' : Heap T) (B : LinkList T) (ms touched : List Nat) (hB : WF h B ms)
    (hlen : h.length ≤ h'.length)
    (hfr : ∀ b, b < h.length → b ∉ touched →
      nextOf h' b = nextOf h b ∧ prevOf h' b = prevOf h b)
    (hdis : ∀ b ∈ ms, b ∉ touched) : WF h' B ms :=
  WF_frame h h' B ms hB hlen (fun b hb => hfr b (hB.lt_length hb) (hdis b hb))

theorem mutation_step [Inhabited T] (m : Mutation T) (h : Heap T) (l : LinkList T)
    (ns : List Nat) (hwf : WF h l ns) (hpre : m.pre h ns) :
    ∃ h' l' ns', m.apply h l = some (h', l') ∧ WF h' l' ns' ∧
      ∀ (B : LinkList T) (ms : List Nat), WF h B ms → (∀ a ∈ ns, a ∉ ms) → m.avoids h ms →
        WF h' B ms := by
  cases m with
  | pushFront v =>
    obtain ⟨h', l', hrun, -, hwf', -⟩ := PushFront_wf h l ns v hwf
    obtain ⟨h2, l2, hrun2, hlen, hfr⟩ := PushFront_frame h l ns v hwf
    rw [hrun] at hrun2
    obtain ⟨rfl, rfl⟩ : h' = h2 ∧ l' = l2 := by simpa using hrun2
    refine ⟨h', l', _, hrun, hwf', ?_⟩
    intro B ms hB hdis _
    exact WF_other h h' B ms ns hB (by omega) hfr (fun b hb hbn => hdis b hbn hb)
  | pushBack v =>
    obtain ⟨h', l', hrun, -, hwf', -, -, -, -, -, -, hlen, hfr⟩ := PushBack_wf h l ns v hwf
    refine ⟨h', l', _, hrun, hwf', ?_⟩
    intro B ms hB hdis _
    exact WF_other h h' B ms ns hB (by omega) hfr (fun b hb hbn => hdis b hbn hb)
  | insertBefore a n =>
    obtain ⟨ha, hn, hnn⟩ := hpre
    obtain ⟨xs, ys, rfl⟩ := List.append_of_mem ha
    obtain ⟨h', l', hrun, hwf', -, -, -, -, -, -, hlen, hfr⟩ :=
      InsertBefore_wf h l xs ys a n hwf hn hnn
    refine ⟨h', l', _, hrun, hwf', ?_⟩
    intro B ms hB hdis hav
    refine WF_other h h' B ms (xs ++ n :: a :: ys) hB (by omega) (fun b _ hb => hfr b hb) ?_
    intro b hb hbn
    have hnb : n ∉ ms := hav
    rcases List.mem_append.1 hbn with hbx | hbx
    · exact hdis b (List.mem_append_left _ hbx) hb
    · rcases List.mem_cons.1 hbx with rfl | hbx
      · exact hnb hb
      · exact hdis b (List.mem_append_right _ hbx) hb
  | remove n =>
    obtain ⟨xs, ys, rfl⟩ := List.append_of_mem hpre
    obtain ⟨h', l', hrun, hwf', -, -, -, -, -, -, -, -, hlen, hfr⟩ := Remove_wf h l xs ys n hwf
    refine ⟨h', l', _, hrun, hwf', ?_⟩
    intro B ms hB hdis _
    exact WF_other h h' B ms (xs ++ n :: ys) hB (by omega) (fun b _ hb => hfr b hb)
      (fun b hb hbn => hdis b hbn hb)
  | detach n =>
    obtain ⟨xs, ys, rfl⟩ := List.append_of_mem hpre
    obtain ⟨h', l', hrun, hwf', -, -, -, -, -, -, -, -, hlen, hfr⟩ := Remove_wf h l xs ys n hwf
    refine ⟨h', l', _, hrun, hwf', ?_⟩
    intro B ms hB hdis _
    exact WF_other h h' B ms (xs ++ n :: ys) hB (by omega) (fun b _ hb => hfr b hb)
      (fun b hb hbn => hdis b hbn hb)
  | rotate =>
    rcases eq_nil_or_snoc ns with rfl | ⟨xs, t, rfl⟩
    · refine ⟨h, l, [], by simp [Mutation.apply, Rotate, ((WF_nil_iff h l).1 hwf).2.1], hwf, ?_⟩
      intro B ms hB _ _; exact hB
    · obtain ⟨h', l', hrun, hwf', -, -, -, -, -, -, -, -, -, hlen, hfr⟩ := Rotate_wf h l xs t hwf
      refine ⟨h', l', _, hrun, hwf', ?_⟩
      intro B ms hB hdis _
      exact WF_other h h' B ms (xs ++ [t]) hB (by omega) (fun b _ hb => hfr b hb)
        (fun b hb hbn => hdis b hbn hb)
  | rotateBack =>
    cases ns with
    | nil =>
      refine ⟨h, l, [], by simp [Mutation.apply, RotateBack, ((WF_nil_iff h l).1 hwf).1], hwf,
        ?_⟩
      intro B ms hB _ _; exact hB
    | cons hd rest =>
      obtain ⟨h', l', hrun, hwf', -, -, -, -, -, -, -, -, -, hlen, hfr⟩ :=
        RotateBack_wf h l rest hd hwf
      refine ⟨h', l', _, hrun, hwf', ?_⟩
      intro B ms hB hdis _
      exact WF_other h h' B ms (hd :: rest) hB (by omega) (fun b _ hb => hfr b hb)
        (fun b hb hbn => hdis b hbn hb)
  | concat list =>
    cases list with
    | none =>
      refine ⟨h, l, ns, rfl, hwf, ?_⟩
      intro B ms hB _ _; exact hB
    | some other =>
      obtain ⟨ms0, hwo, hdis0⟩ := hpre
      by_cases hms0 : ms0 = []
      · subst hms0
        refine ⟨h, l, ns, Concat_empty h l other ((WF_nil_iff h other).1 hwo).1, hwf, ?_⟩
        intro B ms hB _ _; exact hB
      · obtain ⟨h', l', hrun, hwf', -, -, -, -, -, hlen, hfr⟩ :=
          Concat_wf h l other ns ms0 hwf hwo hdis0 hms0
        refine ⟨h', l', _, hrun, hwf', ?_⟩
        intro B ms hB hdis hav
        refine WF_other h h' B ms (ns ++ ms0) hB (by omega) (fun b _ hb => hfr b hb) ?_
        intro b hb hbn
        rcases List.mem_append.1 hbn with hbx | hbx
        · exact hdis b hbx hb
        · exact hav ms0 hwo b hbx hb
  | append n =>
    obtain ⟨hn, hnn, hpn, hnx⟩ := hpre
    obtain ⟨h', l', hrun, hwf', -, -, -, -, hlen, hfr⟩ := Append_wf h l ns n hwf hn hnn hpn hnx
    refine ⟨h', l', _, hrun, hwf', ?_⟩
    intro B ms hB hdis hav
    refine WF_other h h' B ms (n :: ns) hB (by omega) (fun b _ hb => hfr b hb) ?_
    intro b hb hbn
    have hnb : n ∉ ms := hav
    rcases List.mem_cons.1 hbn with rfl | hbx
    · exact hnb hb
    · exact hdis b hbx hb
  | appendBack n =>
    obtain ⟨hn, hnn, hpn, hnx⟩ := hpre
    obtain ⟨h', l', hrun, hwf', -, -, -, -, hlen, hfr⟩ :=
      AppendBack_wf h l ns n hwf hn hnn hpn hnx
    refine ⟨h', l', _, hrun, hwf', ?_⟩
    intro B ms hB hdis hav
    refine WF_other h h' B ms (ns ++ [n]) hB (by omega) (fun b _ hb => hfr b hb) ?_
    intro b hb hbn
    have hnb : n ∉ ms := hav
    rcases List.mem_append.1 hbn with hbx | hbx
    · exact hdis b hbx hb
    · rw [List.mem_singleton] at hbx; subst hbx; exact hnb hb

/-! ## Sessions of pushes and removes -/

theorem runSteps_spec [Inhabited T] (steps : List (Step T)) :
    ∀ (h : Heap T) (l : LinkList T) (ns : List Nat), WF h l ns → stepsOk steps ns.length →
      ∃ h' l' ns', runSteps steps h l = some (h', l') ∧ WF h' l' ns' ∧
        l'.len = l.len + (pushes steps : Int) - (removes steps : Int) := by
  induction steps with
  | nil =>
    intro h l ns hwf _
    exact ⟨h, l, ns, rfl, hwf, by simp [pushes, removes]⟩
  | cons s rest ih =>
    intro h l ns hwf hok
    cases s with
    | pushFront v =>
      obtain ⟨h1, l1, hrun, hlen, hwf1, -⟩ := PushFront_wf h l ns v hwf
      obtain ⟨h2, l2, ns2, hrun2, hwf2, hlen2⟩ := ih h1 l1 _ hwf1 (by simpa [stepsOk] using hok)
      refine ⟨h2, l2, ns2, by simp [runSteps, hrun, hrun2], hwf2, ?_⟩
      rw [hlen2, hlen]; simp only [pushes, removes]; push_cast; ring
    | pushBack v =>
      obtain ⟨h1, l1, hrun, hlen, hwf1, -⟩ := PushBack_wf h l ns v hwf
      obtain ⟨h2, l2, ns2, hrun2, hwf2, hlen2⟩ := ih h1 l1 _ hwf1 (by simpa [stepsOk] using hok)
      refine ⟨h2, l2, ns2, by simp [runSteps, hrun, hrun2], hwf2, ?_⟩
      rw [hlen2, hlen]; simp only [pushes, removes]; push_cast; ring
    | removeAt k =>
      obtain ⟨hk, hok'⟩ : k < ns.length ∧ stepsOk rest (ns.length - 1) := hok
      obtain ⟨h1, l1, hidx, hrun, hwf1, hlen⟩ := Remove_Index h l ns k hwf hk
      have hlen1 : (ns.take k ++ ns.drop (k + 1)).length = ns.length - 1 := by
        rw [List.length_append, List.length_take, List.length_drop]; omega
      obtain ⟨h2, l2, ns2, hrun2, hwf2, hlen2⟩ := ih h1 l1 _ hwf1 (by rw [hlen1]; exact hok')
      refine ⟨h2, l2, ns2, by simp [runSteps, hidx, deref, hrun, hrun2], hwf2, ?_⟩
      rw [hlen2, hlen, hwf.2.2.2.2]; simp only [pushes, removes]; push_cast; ring

/-! ## Copy: the original and the copy are independent -/

theorem Copy_frame [Inhabited T] (fuel : Nat) (h : Heap T) (l : LinkList T) (ns : List Nat)
    (f : T → T) (hwf : WF h l ns) (hf : l.copy = some f) (hfuel : ns.length < fuel) :
    ∃ h' nl ms, Copy fuel h l = some (h', some nl, none) ∧ WF h' l ns ∧
      (∀ b, b < h.length → getValue h' b = getValue h b ∧ nextOf h' b = nextOf h b ∧
        prevOf h' b = prevOf h b) ∧
      WF h' nl ms ∧ nl.len = l.len ∧ (∀ a ∈ ns, a ∉ ms) := by
  obtain ⟨h', nl, hrun, hwf', hlen, -, -, -, hlength, hframe⟩ :=
    Copy_spec fuel h l ns f hwf hf hfuel
  refine ⟨h', nl, _, hrun, ?_, hframe, hwf', hlen, ?_⟩
  · exact WF_frame h h' l ns hwf (by omega)
      (fun b hb => ⟨(hframe b (hwf.lt_length hb)).2.1, (hframe b (hwf.lt_length hb)).2.2⟩)
  · intro a ha hm
    have h1 := hwf.lt_length ha
    have h2 := (List.mem_range'_1.1 hm).1
    omega

/-! ## Properties of the specification, continued -/

/-- C11. For every well-formed non-empty list, `Rotate()` followed by `RotateBack()` both
return and restore the original state exactly: the heap (so every node's `prev`, `next`
and value) and the header (head, tail, length) are the original ones, and the node
sequence is the original one. -/
theorem Rotate_RotateBack_restores (h : Heap T) (l : LinkList T) (ns : List Nat)
    (hwf : WF h l ns) (hne : ns ≠ []) :
    ∃ h1 l1, Rotate h l = some (h1, l1) ∧ ∃ h2 l2, RotateBack h1 l1 = some (h2, l2) ∧
      l2.head = l.head ∧ l2.tail = l.tail ∧ l2.len = l.len ∧
      (∀ b, nextOf h2 b = nextOf h b ∧ prevOf h2 b = prevOf h b) ∧
      h2 = h ∧ l2 = l ∧ WF h2 l2 ns := by
  obtain ⟨h1, l1, hrun1, hrun2⟩ := Rotate_then_RotateBack h l ns hwf hne
  exact ⟨h1, l1, hrun1, h, l, hrun2, rfl, rfl, rfl, fun _ => ⟨rfl, rfl⟩, rfl, rfl, hwf⟩

theorem Rotate_RotateBack_restores_witness :
    WF exHeap3 exList3 [0, 1, 2] ∧
    ∃ h1 l1, Rotate exHeap3 exList3 = some (h1, l1) ∧
      ∃ h2 l2, RotateBack h1 l1 = some (h2, l2) ∧
      l2.head = exList3.head ∧ l2.tail = exList3.tail ∧ l2.len = exList3.len ∧
      (∀ b, nextOf h2 b = nextOf exHeap3 b ∧ prevOf h2 b = prevOf exHeap3 b) ∧
      h2 = exHeap3 ∧ l2 = exList3 ∧ WF h2 l2 [0, 1, 2] :=
  ⟨by decide, Rotate_RotateBack_restores exHeap3 exList3 [0, 1, 2] (by decide) (by decide)⟩

/-- C12. For every list state: `Copy()` returns an error exactly when `copyFn` is not
configured, and then the returned list is absent and the heap is the one it was called on;
`Search(k)` returns an error exactly when `equalFn` is not configured, and then the returned
node is absent. Neither method assigns to the header, and `Search` does not assign to the
heap, so these are not part of their results. -/
theorem error_iff_not_configured [Inhabited T] (fuel : Nat) (h : Heap T) (l : LinkList T)
    (key : T) :
    ((∃ h' r e, Copy fuel h l = some (h', r, some e)) ↔ l.copy = none) ∧
      (l.copy = none → Copy fuel h l = some (h, none, some "copy function is nil")) ∧
      ((∃ r e, Search fuel h l key = some (r, some e)) ↔ l.equal = none) ∧
      (l.equal = none → Search fuel h l key = some (none, some "equal function is nil")) := by
  refine ⟨⟨?_, ?_⟩, ?_, ⟨?_, ?_⟩, ?_⟩
  · rintro ⟨h', r, e, hrun⟩
    cases hc : l.copy with
    | none => rfl
    | some f =>
      simp only [Copy, hc, Option.map_eq_some'] at hrun
      obtain ⟨x, -, hx⟩ := hrun
      simp at hx
  · intro hc
    exact ⟨h, none, "copy function is nil", by simp [Copy, hc]⟩
  · intro hc
    simp [Copy, hc]
  · rintro ⟨r, e, hrun⟩
    cases hq : l.equal with
    | none => rfl
    | some eq =>
      simp only [Search, hq] at hrun
      have := searchLoop_no_error eq key h fuel l.head r (some e) hrun
      simp at this
  · intro hq
    exact ⟨none, "equal function is nil", by simp [Search, hq]⟩
  · intro hq
    simp [Search, hq]

/-- C16. `Remove` and `Detach` are the same operation: for every heap, every header and
every (non-nil) node, `Remove(node)` and `Detach(node)` either both fail or both return the
same heap (every node's `prev`, `next` and value) and the same header (head, tail,
length). -/
theorem Remove_eq_Detach (h : Heap T) (l : LinkList T) (node : Nat) :
    Remove h l node = Detach h l node := rfl

/-- C20. Rotation has period equal to the length: for every well-formed list with node
sequence `ns`, calling `Rotate()` `length ns` times returns and restores the node sequence,
the head and the tail (indeed the whole heap and header), and so does calling
`RotateBack()` `length ns` times. -/
theorem Rotate_period (h : Heap T) (l : LinkList T) (ns : List Nat) (hwf : WF h l ns) :
    (∃ h' l', RotateN ns.length h l = some (h', l') ∧ WF h' l' ns ∧ l'.head = l.head ∧
        l'.tail = l.tail ∧ h' = h ∧ l' = l) ∧
      (∃ h' l', RotateBackN ns.length h l = some (h', l') ∧ WF h' l' ns ∧ l'.head = l.head ∧
        l'.tail = l.tail ∧ h' = h ∧ l' = l) :=
  ⟨⟨h, l, RotateN_length h l ns hwf, hwf, rfl, rfl, rfl, rfl⟩,
    ⟨h, l, RotateBackN_length h l ns hwf, hwf, rfl, rfl, rfl, rfl⟩⟩

theorem Rotate_period_witness :
    WF exHeap3 exList3 [0, 1, 2] ∧
    ((∃ h' l', RotateN ([0, 1, 2] : List Nat).length exHeap3 exList3 = some (h', l') ∧
        WF h' l' [0, 1, 2] ∧ l'.head = exList3.head ∧ l'.tail = exList3.tail ∧
        h' = exHeap3 ∧ l' = exList3) ∧
      (∃ h' l', RotateBackN ([0, 1, 2] : List Nat).length exHeap3 exList3 = some (h', l') ∧
        WF h' l' [0, 1, 2] ∧ l'.head = exList3.head ∧ l'.tail = exList3.tail ∧
        h' = exHeap3 ∧ l' = exList3)) :=
  ⟨by decide, Rotate_period exHeap3 exList3 [0, 1, 2] (by decide)⟩

/-- C18. For every pair of well-formed, node-disjoint, non-empty lists `l` (nodes `ns`) and
`other` (nodes `ms`), `l.Concat(other)` returns and does not reset `other`: the header
`other` is only read, so its head, tail and length are the ones it had, still the first
node, the last node and the number of the transferred nodes `ms`; afterwards the walk from
`other.head` visits exactly `ms` and the walk from `l.head` visits `ns ++ ms`, so every
node of `other` is reachable from both heads. -/
theorem Concat_does_not_reset_other (h : Heap T) (l other : LinkList T) (ns ms : List Nat)
    (hwf : WF h l ns) (hwo : WF h other ms) (hdis : ∀ a ∈ ns, a ∉ ms) (hns : ns ≠ [])
    (hms : ms ≠ []) :
    ∃ h' l', Concat h l (some other) = some (h', l') ∧
      other.head = ms.head? ∧ other.tail = ms.getLast? ∧ other.len = ms.length ∧
      l'.tail = other.tail ∧
      (∀ fuel, (ns ++ ms).length < fuel →
        walk h' fuel other.head = some ms ∧ walk h' fuel l'.head = some (ns ++ ms)) ∧
      (∀ a ∈ ms, a ∈ ns ++ ms) := by
  have _ := hns
  obtain ⟨h', l', hrun, hwf', hch, htail, hval⟩ := Concat_other h l other ns ms hwf hwo hdis hms
  refine ⟨h', l', hrun, hwo.head_eq, hwo.tail_eq, hwo.2.2.2.2, htail, ?_,
    fun a ha => List.mem_append_right _ ha⟩
  intro fuel hfuel
  refine ⟨walk_of_chain h' ms fuel other.head ?_ hch hval, hwf'.walk_eq fuel hfuel⟩
  simp only [List.length_append] at hfuel
  omega

theorem Concat_does_not_reset_other_witness :
    WF exHeapTwo exListA [0, 1] ∧ WF exHeapTwo exListB [2, 3] ∧
    ∃ h' l', Concat exHeapTwo exListA (some exListB) = some (h', l') ∧
      exListB.head = ([2, 3] : List Nat).head? ∧ exListB.tail = ([2, 3] : List Nat).getLast? ∧
      exListB.len = ([2, 3] : List Nat).length ∧ l'.tail = exListB.tail ∧
      (∀ fuel, ([0, 1] ++ [2, 3] : List Nat).length < fuel →
        walk h' fuel exListB.head = some [2, 3] ∧
        walk h' fuel l'.head = some ([0, 1] ++ [2, 3])) ∧
      (∀ a ∈ ([2, 3] : List Nat), a ∈ [0, 1] ++ [2, 3]) :=
  ⟨by decide, by decide,
    Concat_does_not_reset_other exHeapTwo exListA exListB [0, 1] [2, 3] (by decide) (by decide)
      (by decide) (by decide) (by decide)⟩

/-- C19. Concatenating a list with itself breaks acyclicity: for every well-formed non-empty
list `l` with nodes `ns`, `l.Concat(l)` returns, the head and tail stay the same nodes, the
tail's `next` is the head and the head's `prev` is the tail; every node of `ns` has a
`next` inside `ns`, so the walk from the head never reaches `nil` (it does not end within
any fuel); and the length field is doubled. -/
theorem Concat_self_cycle (h : Heap T) (l : LinkList T) (ns : List Nat) (hwf : WF h l ns)
    (hne : ns ≠ []) :
    ∃ h' l' hd t, Concat h l (some l) = some (h', l') ∧ l.head = some hd ∧ l.tail = some t ∧
      l'.head = some hd ∧ l'.tail = some t ∧ nextOf h' t = some hd ∧
      prevOf h' hd = some t ∧ l'.len = 2 * l.len ∧
      (∀ b ∈ ns, ∃ c ∈ ns, nextOf h' b = some c) ∧
      (∀ fuel, walk h' fuel l'.head = none) :=
  Concat_self h l ns hwf hne

theorem Concat_self_cycle_witness :
    WF exHeap3 exList3 [0, 1, 2] ∧
    ∃ h' l' hd t, Concat exHeap3 exList3 (some exList3) = some (h', l') ∧
      exList3.head = some hd ∧ exList3.tail = some t ∧
      l'.head = some hd ∧ l'.tail = some t ∧ nextOf h' t = some hd ∧
      prevOf h' hd = some t ∧ l'.len = 2 * exList3.len ∧
      (∀ b ∈ [0, 1, 2], ∃ c ∈ [0, 1, 2], nextOf h' b = some c) ∧
      (∀ fuel, walk h' fuel l'.head = none) :=
  ⟨by decide, Concat_self_cycle exHeap3 exList3 [0, 1, 2] (by decide) (by decide)⟩

/-- C17. For every well-formed list with node sequence `ns` of length `n` and every position
`k < n`: `Index(k)` returns the node `ns[k]`, `Remove` of it returns, and afterwards
`Index(i)` returns the old `ns[i]` for `0 <= i < k`, the old `ns[i+1]` for
`k <= i < n - 1`, and absent for every `i >= n - 1` and every `i < 0`. -/
theorem Remove_then_Index (h : Heap T) (l : LinkList T) (ns : List Nat) (k : Nat)
    (hwf : WF h l ns) (hk : k < ns.length) :
    ∃ n h' l', Index h l (k : Int) = some (some n) ∧ ns[k]? = some n ∧
      Remove h l n = some (h', l') ∧
      ∀ i : Int,
        (i < 0 → Index h' l' i = some none) ∧
        ((ns.length : Int) - 1 ≤ i → Index h' l' i = some none) ∧
        (0 ≤ i → i < k → ∃ a, ns[i.toNat]? = some a ∧ Index h' l' i = some (some a)) ∧
        ((k : Int) ≤ i → i < (ns.length : Int) - 1 →
          ∃ a, ns[i.toNat + 1]? = some a ∧ Index h' l' i = some (some a)) := by
  obtain ⟨h', l', hidx, hrun, hwf', hlen⟩ := Remove_Index h l ns k hwf hk
  refine ⟨ns[k], h', l', hidx, List.getElem?_eq_getElem hk, hrun, ?_⟩
  have hlen2 : (ns.take k ++ ns.drop (k + 1)).length = ns.length - 1 := by
    rw [List.length_append, List.length_take, List.length_drop]; omega
  intro i
  refine ⟨fun hi => Index_out_of_range h' l' i (Or.inl hi),
    fun hi => Index_out_of_range h' l' i (Or.inr (by rw [hlen]; exact hi)), ?_, ?_⟩
  · intro h0 h1
    have hj : i.toNat < ns.length := by omega
    have hjk : i.toNat < k := by omega
    refine ⟨ns[i.toNat], List.getElem?_eq_getElem hj, ?_⟩
    have hidx' := Index_in_range h' l' _ hwf' i.toNat (by rw [hlen2]; omega)
    rw [Int.toNat_of_nonneg h0, getElem?_erase_split ns k _ hk, if_pos hjk,
      List.getElem?_eq_getElem hj] at hidx'
    exact hidx'
  · intro hki h1
    have h0 : 0 ≤ i := by omega
    have hj : i.toNat + 1 < ns.length := by omega
    have hjk : ¬ i.toNat < k := by omega
    refine ⟨ns[i.toNat + 1], List.getElem?_eq_getElem hj, ?_⟩
    have hidx' := Index_in_range h' l' _ hwf' i.toNat (by rw [hlen2]; omega)
    rw [Int.toNat_of_nonneg h0, getElem?_erase_split ns k _ hk, if_neg hjk,
      List.getElem?_eq_getElem hj] at hidx'
    exact hidx'

theorem Remove_then_Index_witness :
    WF exHeap3 exList3 [0, 1, 2] ∧ 1 < ([0, 1, 2] : List Nat).length ∧
    ∃ n h' l', Index exHeap3 exList3 ((1 : Nat) : Int) = some (some n) ∧
      ([0, 1, 2] : List Nat)[1]? = some n ∧
      Remove exHeap3 exList3 n = some (h', l') ∧
      ∀ i : Int,
        (i < 0 → Index h' l' i = some none) ∧
        ((([0, 1, 2] : List Nat).length : Int) - 1 ≤ i → Index h' l' i = some none) ∧
        (0 ≤ i → i < (1 : Nat) →
          ∃ a, ([0, 1, 2] : List Nat)[i.toNat]? = some a ∧ Index h' l' i = some (some a)) ∧
        (((1 : Nat) : Int) ≤ i → i < (([0, 1, 2] : List Nat).length : Int) - 1 →
          ∃ a, ([0, 1, 2] : List Nat)[i.toNat + 1]? = some a ∧
            Index h' l' i = some (some a)) :=
  ⟨by decide, by decide, Remove_then_Index exHeap3 exList3 [0, 1, 2] 1 (by decide) (by decide)⟩

/-- C15. For every well-formed list with node sequence `ns` and every allocated detached
node `n` (`prev` and `next` absent) that is not in the list: `Append(n)` returns and the
node sequence is `n :: ns`; `AppendBack(n)` returns and the node sequence is `ns ++ [n]`;
in both cases the length is the old length plus one and the value of `n` (of every node)
is unchanged. -/
theorem Append_AppendBack_correct (h : Heap T) (l : LinkList T) (ns : List Nat) (n : Nat)
    (hwf : WF h l ns) (hn : n < h.length) (hnn : n ∉ ns) (hpn : prevOf h n = none)
    (hnx : nextOf h n = none) :
    (∃ h' l', Append h l n = some (h', l') ∧ WF h' l' (n :: ns) ∧ l'.len = l.len + 1 ∧
        getValue h' n = getValue h n) ∧
      (∃ h' l', AppendBack h l n = some (h', l') ∧ WF h' l' (ns ++ [n]) ∧
        l'.len = l.len + 1 ∧ getValue h' n = getValue h n) := by
  obtain ⟨h1, l1, hrun1, hwf1, hlen1, hv1, -⟩ := Append_wf h l ns n hwf hn hnn hpn hnx
  obtain ⟨h2, l2, hrun2, hwf2, hlen2, hv2, -⟩ := AppendBack_wf h l ns n hwf hn hnn hpn hnx
  exact ⟨⟨h1, l1, hrun1, hwf1, hlen1, hv1 n⟩, ⟨h2, l2, hrun2, hwf2, hlen2, hv2 n⟩⟩

theorem Append_AppendBack_correct_witness :
    WF exHeap4 exList3 [0, 1, 2] ∧ 3 < exHeap4.length ∧ 3 ∉ [0, 1, 2] ∧
    prevOf exHeap4 3 = none ∧ nextOf exHeap4 3 = none ∧
    ((∃ h' l', Append exHeap4 exList3 3 = some (h', l') ∧ WF h' l' (3 :: [0, 1, 2]) ∧
        l'.len = exList3.len + 1 ∧ getValue h' 3 = getValue exHeap4 3) ∧
      (∃ h' l', AppendBack exHeap4 exList3 3 = some (h', l') ∧ WF h' l' ([0, 1, 2] ++ [3]) ∧
        l'.len = exList3.len + 1 ∧ getValue h' 3 = getValue exHeap4 3)) :=
  ⟨by decide, by decide, by decide, by decide, by decide,
    Append_AppendBack_correct exHeap4 exList3 [0, 1, 2] 3 (by decide) (by decide) (by decide)
      (by decide) (by decide)⟩

/-- C13. Well-formedness, defined in the words of the specification (`WellFormed`), is an
invariant of the receiver. Every well-formed list has a node sequence `ns`, and each of
`PushFront`, `PushBack`, `InsertBefore`, `Remove`, `Detach`, `Rotate`, `RotateBack`,
`Concat`, `Append` and `AppendBack`, called under its documented precondition, returns and
leaves the receiver well formed. Consequently a session of pushes and removes (each
remove taking a node of the list) started on the empty list in any heap runs to the end,
leaves the list well formed, and the length equals the number of pushes minus the number
of removes. -/
theorem wellFormed_invariant [Inhabited T] (h : Heap T) (l : LinkList T)
    (hw : WellFormed h l) :
    ∃ ns, WF h l ns ∧
      (∀ m : Mutation T, m.pre h ns →
        ∃ h' l', m.apply h l = some (h', l') ∧ WellFormed h' l') ∧
      (∀ (h0 : Heap T) (steps : List (Step T)), stepsOk steps 0 →
        ∃ h' l', runSteps steps h0 newList = some (h', l') ∧ WellFormed h' l' ∧
          l'.len = (pushes steps : Int) - (removes steps : Int)) := by
  obtain ⟨ns, hwf⟩ := WF_of_WellFormed h l hw
  refine ⟨ns, hwf, ?_, ?_⟩
  · intro m hpre
    obtain ⟨h', l', ns', hrun, hwf', -⟩ := mutation_step m h l ns hwf hpre
    exact ⟨h', l', hrun, WellFormed_of_WF h' l' ns' hwf'⟩
  · intro h0 steps hok
    have hwf0 : WF h0 (newList : LinkList T) [] := by simp [WF_nil_iff, newList]
    obtain ⟨h', l', ns', hrun, hwf', hlen⟩ := runSteps_spec steps h0 newList [] hwf0 hok
    refine ⟨h', l', hrun, WellFormed_of_WF h' l' ns' hwf', ?_⟩
    rw [hlen]; simp [newList]

theorem wellFormed_invariant_witness :
    WellFormed exHeap3 exList3 ∧
    ∃ ns, WF exHeap3 exList3 ns ∧
      (∀ m : Mutation Int, m.pre exHeap3 ns →
        ∃ h' l', m.apply exHeap3 exList3 = some (h', l') ∧ WellFormed h' l') ∧
      (∀ (h0 : Heap Int) (steps : List (Step Int)), stepsOk steps 0 →
        ∃ h' l', runSteps steps h0 newList = some (h', l') ∧ WellFormed h' l' ∧
          l'.len = (pushes steps : Int) - (removes steps : Int)) :=
  ⟨WellFormed_of_WF exHeap3 exList3 [0, 1, 2] (by decide),
    wellFormed_invariant exHeap3 exList3 (WellFormed_of_WF exHeap3 exList3 [0, 1, 2] (by decide))⟩

/-- C14. For every well-formed list with node sequence `ns` and `copyFn` configured, `Copy()`
returns without error; the original header is only read and is still well formed with node
sequence `ns` in the new heap, every cell of the old heap keeps its `prev`, `next` and
value; the returned list is well formed, has the same length and shares no node with the
original; and any later mutating call on the copy (resp. on the original), under its
documented precondition and with arguments that involve no node of the other list, leaves
the node sequence of the original (resp. of the copy) as it was. -/
theorem Copy_independent [Inhabited T] (fuel : Nat) (h : Heap T) (l : LinkList T)
    (ns : List Nat) (f : T → T) (hwf : WF h l ns) (hf : l.copy = some f)
    (hfuel : ns.length < fuel) :
    ∃ h' nl ms, Copy fuel h l = some (h', some nl, none) ∧ WF h' l ns ∧
      (∀ b, b < h.length → getValue h' b = getValue h b ∧ nextOf h' b = nextOf h b ∧
        prevOf h' b = prevOf h b) ∧
      WF h' nl ms ∧ nl.len = l.len ∧ (∀ a ∈ ns, a ∉ ms) ∧
      (∀ m : Mutation T, m.pre h' ms → m.avoids h' ns →
        ∃ h2 nl2 ms2, m.apply h' nl = some (h2, nl2) ∧ WF h2 nl2 ms2 ∧ WF h2 l ns) ∧
      (∀ m : Mutation T, m.pre h' ns → m.avoids h' ms →
        ∃ h2 l2 ns2, m.apply h' l = some (h2, l2) ∧ WF h2 l2 ns2 ∧ WF h2 nl ms) := by
  obtain ⟨h', nl, ms, hrun, hwfl, hframe, hwfn, hlen, hdis⟩ :=
    Copy_frame fuel h l ns f hwf hf hfuel
  refine ⟨h', nl, ms, hrun, hwfl, hframe, hwfn, hlen, hdis, ?_, ?_⟩
  · intro m hpre hav
    obtain ⟨h2, nl2, ms2, hrun2, hwf2, hother⟩ := mutation_step m h' nl ms hwfn hpre
    exact ⟨h2, nl2, ms2, hrun2, hwf2, hother l ns hwfl (fun a ha hn => hdis a hn ha) hav⟩
  · intro m hpre hav
    obtain ⟨h2, l2, ns2, hrun2, hwf2, hother⟩ := mutation_step m h' l ns hwfl hpre
    exact ⟨h2, l2, ns2, hrun2, hwf2, hother nl ms hwfn hdis hav⟩

theorem Copy_independent_witness :
    WF exHeap3 exList3 [0, 1, 2] ∧
    ∃ h' nl ms, Copy 4 exHeap3 exList3 = some (h', some nl, none) ∧ WF h' exList3 [0, 1, 2] ∧
      (∀ b, b < exHeap3.length → getValue h' b = getValue exHeap3 b ∧
        nextOf h' b = nextOf exHeap3 b ∧ prevOf h' b = prevOf exHeap3 b) ∧
      WF h' nl ms ∧ nl.len = exList3.len ∧ (∀ a ∈ [0, 1, 2], a ∉ ms) ∧
      (∀ m : Mutation Int, m.pre h' ms → m.avoids h' [0, 1, 2] →
        ∃ h2 nl2 ms2, m.apply h' nl = some (h2, nl2) ∧ WF h2 nl2 ms2 ∧
          WF h2 exList3 [0, 1, 2]) ∧
      (∀ m : Mutation Int, m.pre h' [0, 1, 2] → m.avoids h' ms →
        ∃ h2 l2 ns2, m.apply h' exList3 = some (h2, l2) ∧ WF h2 l2 ns2 ∧ WF h2 nl ms) :=
  ⟨by decide,
    Copy_independent 4 exHeap3 exList3 [0, 1, 2] (fun x => x) (by decide) rfl (by decide)⟩

end dataStruct
